import Mathlib

set_option autoImplicit false

namespace Triplit

/-! ## JavaScript value model

Primitive values as they appear as triple values and filter operands in
`src/packages/db/src/db.ts`.  JS numbers are modelled as integers. -/

/-- A primitive JS value: `string`, `number`, `boolean`, `date` or `null`.
Dates are represented by their numeric epoch value. -/
inductive JSPrim where
  | null
  | bool (b : Bool)
  | num (n : Int)
  | str (s : String)
  deriving DecidableEq, Repr

/-- A JS value as it appears in a filter operand or a variables map:
either a primitive or an array of primitives (used by `in`/`nin`). -/
inductive JSVal where
  | prim (p : JSPrim)
  | arr (l : List JSPrim)
  deriving DecidableEq, Repr

/-- JS truthiness on `JSVal` (`!varValue` in
`replaceVariablesInFilterStatements`, db.ts line 1011): `null`, `false`,
`0` and the empty string are falsy; arrays are always truthy. -/
def JSVal.falsy : JSVal → Bool
  | .prim .null => true
  | .prim (.bool b) => !b
  | .prim (.num n) => n == 0
  | .prim (.str s) => s == ""
  | .arr _ => false

/-- The typed error kinds surfaced by the db core (src/packages/db/src/errors,
referenced from db.ts).  `genericError` stands for a plain `new Error(...)`
(as thrown by the update proxy at db.ts line 303). -/
inductive ErrKind where
  | entityNotFound
  | invalidEntityId
  | invalidInternalEntityId
  | invalidMigrationOperation
  | sessionVariableNotFound (varName : String)
  | writeRule
  | unknownAttribute
  | genericError (msg : String)
  deriving DecidableEq, Repr

/-- Decidable equality for `Except` results (core provides none). -/
def exceptDecEq {ε α : Type} [DecidableEq ε] [DecidableEq α] :
    (a b : Except ε α) → Decidable (a = b)
  | .ok a, .ok b =>
    match decEq a b with
    | isTrue h => isTrue (by rw [h])
    | isFalse h => isFalse (fun hh => h (by cases hh; rfl))
  | .error a, .error b =>
    match decEq a b with
    | isTrue h => isTrue (by rw [h])
    | isFalse h => isFalse (fun hh => h (by cases hh; rfl))
  | .ok _, .error _ => isFalse (fun hh => by cases hh)
  | .error _, .ok _ => isFalse (fun hh => by cases hh)

instance {ε α : Type} [DecidableEq ε] [DecidableEq α] : DecidableEq (Except ε α) :=
  exceptDecEq

/-- First character is `$` (the `.startsWith('$')` check; implemented
over the character list so that terms reduce). -/
def startsWithDollar (s : String) : Bool :=
  s.toList.head? == some '$'

/-- Drop the first character (the `.slice(1)` of the code). -/
def dropFirst (s : String) : String :=
  String.mk (s.toList.drop 1)

/-- Split a character list on a separator (JS `String.split`:
`"".split` is `[""]`). -/
def splitChars (sep : Char) : List Char → List (List Char)
  | [] => [[]]
  | c :: rest =>
    let r := splitChars sep rest
    if c == sep then [] :: r
    else
      match r with
      | [] => [[c]]
      | hd :: tl => (c :: hd) :: tl

/-! ## Association-list helpers

JS objects and `Map`s are modelled as association lists with
first-binding-wins lookup (JS object keys are unique, so the
representation is faithful). -/

/-- First-binding lookup in an association list. -/
def alookup {κ α : Type} [DecidableEq κ] : List (κ × α) → κ → Option α
  | [], _ => none
  | (k, v) :: rest, key => if k = key then some v else alookup rest key

/-- Replace the first binding of `key` (or append a new binding), as JS
`Map.set` / object property assignment does. -/
def aupsert {κ α : Type} [DecidableEq κ] : List (κ × α) → κ → α → List (κ × α)
  | [], key, v => [(key, v)]
  | (k, w) :: rest, key, v =>
    if k = key then (k, v) :: rest else (k, w) :: aupsert rest key v

/-- `attr` starts with the segments `pat` (segment-wise attribute-path
match, as used by `findByAttribute` / `readMetadataTuples`). -/
def segsMatch (pat attr : List String) : Bool :=
  attr.take pat.length == pat

/-! ## Filters

Where-predicates are nested boolean trees whose leaves are statements
`[path, op, value]` (spec section 4.3; `FilterStatement` / `QueryWhere`
in src/packages/db/src/query.ts, used throughout db.ts).  A non-leaf
node carries its sub-filters in a `filters` field. -/

/-- A filter operator (spec 4.3):
`=, !=, <, <=, >, >=, in, nin, has, !has, like`. -/
inductive FOp where
  | eq | ne | lt | lte | gt | gte | inOp | ninOp | has | nhas | like
  deriving DecidableEq, Repr

/-- Boolean connective of a filter group node. -/
inductive GroupMod where
  | and | or
  deriving DecidableEq, Repr

mutual
/-- A node of a where-predicate tree: a leaf statement (a JS array
`[path, op, value]`) or a group object carrying `filters`. -/
inductive Filter where
  | stmt (path : List String) (op : FOp) (value : JSVal)
  | group (mod : GroupMod) (filters : FilterList)
  deriving DecidableEq, Repr
/-- The list of sub-filters of a group node. -/
inductive FilterList where
  | nil
  | cons (f : Filter) (rest : FilterList)
  deriving DecidableEq, Repr
end

instance : Inhabited FilterList := ⟨.nil⟩

instance : Inhabited Filter := ⟨.group .and .nil⟩

/-! ## Variable resolution (`replaceVariablesInFilterStatements`, db.ts
lines 996-1014)

A statement whose value is a string starting with `$` is resolved
against the variables map.  The code throws
`SessionVariableNotFoundError` when `!varValue` holds, i.e. both when
the variable is absent (`undefined`) and when its bound value is falsy. -/

mutual
/-- Resolve variables in one filter node (db.ts 1000-1013): group nodes
recurse into `filter.filters`; a statement whose value is not a string
or does not start with `$` is returned unchanged; otherwise the bound
value is substituted, or `SessionVariableNotFound` is thrown when the
variable is absent or its value is falsy (`if (!varValue) throw`). -/
def replaceVariablesInFilter (varMap : List (String × JSVal)) :
    Filter → Except ErrKind Filter
  | .group mod fs =>
    match replaceVariablesInFilterList varMap fs with
    | .ok fs2 => .ok (.group mod fs2)
    | .error e => .error e
  | .stmt path op v =>
    match v with
    | .prim (.str s) =>
      if startsWithDollar s then
        match alookup varMap (dropFirst s) with
        | none => .error (.sessionVariableNotFound s)
        | some val =>
          if val.falsy then .error (.sessionVariableNotFound s)
          else .ok (.stmt path op val)
      else .ok (.stmt path op (.prim (.str s)))
    | _ => .ok (.stmt path op v)

/-- Resolve variables in a list of sub-filters. -/
def replaceVariablesInFilterList (varMap : List (String × JSVal)) :
    FilterList → Except ErrKind FilterList
  | .nil => .ok .nil
  | .cons f rest =>
    match replaceVariablesInFilter varMap f with
    | .error e => .error e
    | .ok f2 =>
      match replaceVariablesInFilterList varMap rest with
      | .error e => .error e
      | .ok rest2 => .ok (.cons f2 rest2)
end

/-- Resolve variables across a where-clause (the `statements.map` at
db.ts line 1000; the first thrown error propagates). -/
def replaceVariablesInFilterStatements (statements : List Filter)
    (varMap : List (String × JSVal)) : Except ErrKind (List Filter) :=
  match statements with
  | [] => .ok []
  | f :: rest =>
    match replaceVariablesInFilter varMap f with
    | .error e => .error e
    | .ok f2 =>
      match replaceVariablesInFilterStatements rest varMap with
      | .error e => .error e
      | .ok rest2 => .ok (f2 :: rest2)

/-! ## Schema model

Modelled from the spec: the schema builder and descriptor serialization
live in src/packages/db/src/schema/builder.ts and schema.ts, which are
not under src/.  Spec section 3: an `AttributeDescriptor` is a
discriminated union over `Id, String, Number, Boolean, Date, Set<item>,
Record<fields>, Optional<inner>`; every leaf type carries
`options: { nullable, default?, enum? }`; `Optional` sets an
`optional: true` flag at its path (descriptors serialize with a `type`
tag, `options` and an `optional` flag, as the expected diff metadata in
src/packages/db/test/schema-checking.spec.ts shows), so it is modelled
here as the flag it sets. -/

/-- The scalar leaf types.  `S.Id()` serializes with type tag `string`
(and a `uuid` default). -/
inductive LeafType where
  | id | string | number | boolean | date
  deriving DecidableEq, Repr

/-- `DefaultSpec = { func: "uuid"|"now"|"literal", args: any|null }`
(spec section 3). -/
structure DefaultSpec where
  func : String
  args : Option JSPrim
  deriving DecidableEq, Repr

/-- Options carried by every leaf (and set) descriptor. -/
structure LeafOptions where
  nullable : Bool
  dflt : Option DefaultSpec
  enumVals : Option (List JSPrim)
  deriving DecidableEq, Repr

mutual
/-- A serialized attribute descriptor (spec section 3). -/
inductive AttributeDescriptor where
  | leaf (t : LeafType) (options : LeafOptions) (optional : Bool)
  | set (item : AttributeDescriptor) (options : LeafOptions) (optional : Bool)
  | record (fields : FieldList) (optional : Bool)
  deriving DecidableEq, Repr
/-- The field map of a `Record` descriptor (attribute name →
descriptor), an association list with unique keys. -/
inductive FieldList where
  | nil
  | cons (name : String) (descriptor : AttributeDescriptor) (rest : FieldList)
  deriving DecidableEq, Repr
end

/-- First-binding lookup in a field map. -/
def lookupF : FieldList → String → Option AttributeDescriptor
  | .nil, _ => none
  | .cons k d rest, key => if k = key then some d else lookupF rest key

/-- A read/write rule: a filter conjunction plus an optional
description (`Rule` in db.ts lines 57-60). -/
structure Rule where
  filter : List Filter
  description : Option String
  deriving DecidableEq

/-- `CollectionRules` (db.ts lines 62-67). -/
structure CollectionRules where
  read : Option (List Rule)
  write : Option (List Rule)
  deriving DecidableEq

/-- An opaque JSON blob (roles / permissions), modelled in flattened
path-value form and compared by decidable (deep) equality, as the spec
requires for `roles` and `permissions` diffing. -/
def Blob := List (List String × JSPrim)

instance : DecidableEq Blob := by
  unfold Blob
  infer_instance

/-- `CollectionDef`: `{ schema, rules?, permissions? }` (spec section 3). -/
structure CollectionDef where
  schema : FieldList
  rules : Option CollectionRules
  permissions : Option Blob
  deriving DecidableEq

/-- A whole schema: version, collections map and optional roles blob
(spec section 3). -/
structure SchemaDef where
  version : Int
  collections : List (String × CollectionDef)
  roles : Option Blob
  deriving DecidableEq

/-! ## Schema diff engine

Modelled from the spec: `diffSchemas` lives in
src/packages/db/src/schema/diff.ts, which is not under src/ (only its
test, src/packages/db/test/schema-checking.spec.ts, is).  Spec section
4.4: walk both collection maps; for each pair walk the attribute tree
by path; `insert` when a path present in `new` is absent in `old`
(metadata = the new descriptor, `isNewCollection` true iff the entire
collection is new), `delete` the other way round (metadata = the old
descriptor), `update` when both are present but differ (`changes`
contains only the differing fields); `Record` types recurse into their
fields; a `Set` inner-type change yields an `update` at the set's path;
`collectionRules` / `collectionPermissions` / `roles` records are
emitted iff the respective blob differs by deep equality.  The spec's
output sorting is omitted: the claims below are membership statements,
which sorting does not affect. -/

/-- Discriminant of a `collectionAttribute` diff record. -/
inductive DiffType where
  | insert | delete | update
  deriving DecidableEq, Repr

/-- The type tag of a descriptor, as it appears in a `changes.type`
entry. -/
def AttributeDescriptor.tag : AttributeDescriptor → String
  | .leaf .id _ _ => "string"
  | .leaf .string _ _ => "string"
  | .leaf .number _ _ => "number"
  | .leaf .boolean _ _ => "boolean"
  | .leaf .date _ _ => "date"
  | .set _ _ _ => "set"
  | .record _ _ => "record"

/-- The `optional` flag of a descriptor. -/
def AttributeDescriptor.optionalFlag : AttributeDescriptor → Bool
  | .leaf _ _ o => o
  | .set _ _ o => o
  | .record _ o => o

/-- The `options` of a descriptor (records carry none). -/
def AttributeDescriptor.optionsOf : AttributeDescriptor → Option LeafOptions
  | .leaf _ os _ => some os
  | .set _ os _ => some os
  | .record _ _ => none

/-- The item descriptor of a set. -/
def AttributeDescriptor.itemOf : AttributeDescriptor → Option AttributeDescriptor
  | .set i _ _ => some i
  | _ => none

/-- The `changes` object of an `update` diff record: only the differing
fields are present, each holding the *new* side's value (spec 4.4; the
expected objects in the diff test assert exactly this shape). -/
structure Changes where
  type : Option String
  optional : Option Bool
  nullable : Option Bool
  dflt : Option (Option DefaultSpec)
  enumVals : Option (Option (List JSPrim))
  items : Option String
  deriving DecidableEq, Repr

/-- Compute the `changes` object between an old and a new descriptor.
`items` records the new set-item type tag when the item descriptors of
two sets differ. -/
def changesBetween (o n : AttributeDescriptor) : Changes where
  type := if o.tag ≠ n.tag then some n.tag else none
  optional := if o.optionalFlag ≠ n.optionalFlag then some n.optionalFlag else none
  nullable :=
    match o.optionsOf, n.optionsOf with
    | some a, some b => if a.nullable ≠ b.nullable then some b.nullable else none
    | _, _ => none
  dflt :=
    match o.optionsOf, n.optionsOf with
    | some a, some b => if a.dflt ≠ b.dflt then some b.dflt else none
    | _, _ => none
  enumVals :=
    match o.optionsOf, n.optionsOf with
    | some a, some b => if a.enumVals ≠ b.enumVals then some b.enumVals else none
    | _, _ => none
  items :=
    match o.itemOf, n.itemOf with
    | some a, some b => if a ≠ b then some b.tag else none
    | _, _ => none

/-- A `collectionAttribute` diff record.  `metadata` is present on
`insert`/`delete`, `changes` on `update`, `isNewCollection` on
`insert` only (mirroring which keys the JS records carry). -/
structure AttrDiff where
  collection : String
  type : DiffType
  attrPath : List String
  metadata : Option AttributeDescriptor
  changes : Option Changes
  isNewCollection : Option Bool
  deriving DecidableEq, Repr

/-- An `insert` record. -/
def mkInsert (c : String) (p : List String) (m : AttributeDescriptor)
    (isNew : Bool) : AttrDiff :=
  ⟨c, .insert, p, some m, none, some isNew⟩

/-- A `delete` record. -/
def mkDelete (c : String) (p : List String) (m : AttributeDescriptor) : AttrDiff :=
  ⟨c, .delete, p, some m, none, none⟩

/-- An `update` record. -/
def mkUpdate (c : String) (p : List String) (ch : Changes) : AttrDiff :=
  ⟨c, .update, p, none, some ch, none⟩

/-- A schema diff record (discriminated on `_diff`). -/
inductive SchemaDiff where
  | attr (d : AttrDiff)
  | rules (collection : String)
  | permissions (collection : String)
  | roles
  deriving DecidableEq, Repr

/-- Inserts for the attribute paths of `fn` that are absent from `fo`
(walked in `fn` order; `seen` skips shadowed duplicate keys so that the
walk agrees with first-binding lookup). -/
def diffFieldsNew (c : String) (path : List String) (fo : FieldList)
    (seen : List String) : FieldList → List AttrDiff
  | .nil => []
  | .cons k d rest =>
    if k ∈ seen then diffFieldsNew c path fo seen rest
    else
      (match lookupF fo k with
       | some _ => []
       | none => [mkInsert c (path ++ [k]) d false])
      ++ diffFieldsNew c path fo (k :: seen) rest

mutual
/-- Diff two descriptors found at the same `path`.  Equal descriptors
yield nothing; a pair of records recurses into the fields (plus a
shallow `update` when their `optional` flags differ); any other
differing pair yields one `update` carrying `changesBetween`. -/
def diffAttribute (c : String) (path : List String)
    (o n : AttributeDescriptor) : List AttrDiff :=
  if o = n then []
  else
    match o, n with
    | .record fo oo, .record fn on2 =>
      (if oo ≠ on2 then [mkUpdate c path (changesBetween (.record fo oo) (.record fn on2))]
       else [])
      ++ (diffFieldsOld c path [] fo fn ++ diffFieldsNew c path fo [] fn)
    | _, _ => [mkUpdate c path (changesBetween o n)]

/-- Walk the old field map: a path also present in the new map is
diffed recursively, a path absent from it yields a `delete`. -/
def diffFieldsOld (c : String) (path : List String) (seen : List String)
    (fo : FieldList) (fn : FieldList) : List AttrDiff :=
  match fo with
  | .nil => []
  | .cons k d rest =>
    if k ∈ seen then diffFieldsOld c path seen rest fn
    else
      (match lookupF fn k with
       | some d2 => diffAttribute c (path ++ [k]) d d2
       | none => [mkDelete c (path ++ [k]) d])
      ++ diffFieldsOld c path (k :: seen) rest fn
end

/-- All diff records between two field maps at `path`. -/
def diffFields (c : String) (path : List String) (fo fn : FieldList) :
    List AttrDiff :=
  diffFieldsOld c path [] fo fn ++ diffFieldsNew c path fo [] fn

/-- The (first) bindings of a field map in walk order. -/
def firstBindings (seen : List String) :
    FieldList → List (String × AttributeDescriptor)
  | .nil => []
  | .cons k d rest =>
    if k ∈ seen then firstBindings seen rest
    else (k, d) :: firstBindings (k :: seen) rest

/-- Insert records for every top-level attribute of an entirely new
collection (`isNewCollection: true`). -/
def insertAllAttributes (c : String) (fl : FieldList) : List AttrDiff :=
  (firstBindings [] fl).map (fun kd => mkInsert c [kd.1] kd.2 true)

/-- Delete records for every top-level attribute of a removed
collection. -/
def deleteAllAttributes (c : String) (fl : FieldList) : List AttrDiff :=
  (firstBindings [] fl).map (fun kd => mkDelete c [kd.1] kd.2)

/-- Diff a collection present in both schemas: attribute diffs plus a
`collectionRules` / `collectionPermissions` record when the respective
blob differs by deep equality. -/
def diffCollectionPair (c : String) (o n : CollectionDef) : List SchemaDiff :=
  (diffFields c [] o.schema n.schema).map SchemaDiff.attr
  ++ (if o.rules ≠ n.rules then [SchemaDiff.rules c] else [])
  ++ (if o.permissions ≠ n.permissions then [SchemaDiff.permissions c] else [])

/-- Walk the old collections map. -/
def diffCollectionsOld (seen : List String)
    (co cn : List (String × CollectionDef)) : List SchemaDiff :=
  match co with
  | [] => []
  | (name, cd) :: rest =>
    if name ∈ seen then diffCollectionsOld seen rest cn
    else
      (match alookup cn name with
       | some cd2 => diffCollectionPair name cd cd2
       | none => (deleteAllAttributes name cd.schema).map SchemaDiff.attr)
      ++ diffCollectionsOld (name :: seen) rest cn

/-- Walk the new collections map, emitting inserts for entirely new
collections. -/
def diffCollectionsNew (co : List (String × CollectionDef))
    (seen : List String) : List (String × CollectionDef) → List SchemaDiff
  | [] => []
  | (name, cd) :: rest =>
    if name ∈ seen then diffCollectionsNew co seen rest
    else
      (match alookup co name with
       | some _ => []
       | none => (insertAllAttributes name cd.schema).map SchemaDiff.attr)
      ++ diffCollectionsNew co (name :: seen) rest

/-- `diffSchemas(old, new)` (spec 4.4): structured diff of two schemas.
A `roles` record is emitted iff the top-level roles blob differs. -/
def diffSchemas (a b : SchemaDef) : List SchemaDiff :=
  diffCollectionsOld [] a.collections b.collections
  ++ diffCollectionsNew a.collections [] b.collections
  ++ (if a.roles ≠ b.roles then [SchemaDiff.roles] else [])

/-- The mirrored counterpart relation used by the diff-symmetry claim:
an `insert` of metadata `m` mirrors to a `delete` of the same metadata
(and vice versa, with `isNewCollection := false` inside a collection
pair), and an `update` mirrors to the `update` whose `changes` swap
the from/to orientation (`changesBetween` with its arguments swapped). -/
def MirrorIn (x : AttrDiff) (L : List AttrDiff) : Prop :=
  (x.type = .insert → ∃ m, x.metadata = some m ∧
    mkDelete x.collection x.attrPath m ∈ L)
  ∧ (x.type = .delete → ∃ m, x.metadata = some m ∧
    mkInsert x.collection x.attrPath m false ∈ L)
  ∧ (x.type = .update → ∃ o2 n2, x.changes = some (changesBetween o2 n2) ∧
    mkUpdate x.collection x.attrPath (changesBetween n2 o2) ∈ L)

/-! ## Entities

Modelled from the spec (section 4.1, document codec; the codec lives in
src/packages/db/src/schema.ts and document.ts, which are not under
src/): an entity materializes as a *timestamped object* — a nested
object whose leaves carry `{ value, timestamp }` — and
`timestampedObjectToPlainObject` drops the timestamps. -/

mutual
/-- A timestamped object: leaves carry a value and a hybrid timestamp
`(tick, clientId)`. -/
inductive TSObj where
  | leaf (v : JSPrim) (tick : Nat) (client : String)
  | node (fields : TSFields)
  deriving DecidableEq, Repr
/-- Field map of a timestamped object. -/
inductive TSFields where
  | nil
  | cons (k : String) (o : TSObj) (rest : TSFields)
  deriving DecidableEq, Repr
end

mutual
/-- A plain document. -/
inductive PlainObj where
  | leaf (v : JSPrim)
  | node (fields : PlainFields)
  deriving DecidableEq, Repr
/-- Field map of a plain document. -/
inductive PlainFields where
  | nil
  | cons (k : String) (o : PlainObj) (rest : PlainFields)
  deriving DecidableEq, Repr
end

mutual
/-- `timestampedObjectToPlainObject` (spec 4.1): drop the timestamp of
every leaf. -/
def timestampedObjectToPlainObject : TSObj → PlainObj
  | .leaf v _ _ => .leaf v
  | .node fs => .node (stripFields fs)
/-- Strip timestamps across a field map. -/
def stripFields : TSFields → PlainFields
  | .nil => .nil
  | .cons k o rest => .cons k (timestampedObjectToPlainObject o) (stripFields rest)
end

mutual
/-- Wrap every leaf of a plain document with the given timestamp. -/
def wrapPlain (tick : Nat) (client : String) : PlainObj → TSObj
  | .leaf v => .leaf v tick client
  | .node fs => .node (wrapFields tick client fs)
/-- Wrap a plain field map. -/
def wrapFields (tick : Nat) (client : String) : PlainFields → TSFields
  | .nil => .nil
  | .cons k o rest => .cons k (wrapPlain tick client o) (wrapFields tick client rest)
end

/-- `objectToTimestampedObject` (schema.ts, not under src/): wrap a
plain document's leaves as `{ value, timestamp }` pairs; the assigned
timestamp is irrelevant to rule evaluation and is modelled as
`(0, "")`. -/
def objectToTimestampedObject (p : PlainObj) : TSObj :=
  wrapPlain 0 "" p

/-- First-binding lookup in a timestamped field map. -/
def lookupTS : TSFields → String → Option TSObj
  | .nil, _ => none
  | .cons k o rest, key => if k = key then some o else lookupTS rest key

/-- Replace the first binding of `key`, or append one. -/
def upsertTS : TSFields → String → TSObj → TSFields
  | .nil, key, o => .cons key o .nil
  | .cons k w rest, key, o =>
    if k = key then .cons k o rest else .cons k w (upsertTS rest key o)

/-- Descend a timestamped object along a path. -/
def getAt : TSObj → List String → Option TSObj
  | o, [] => some o
  | .node fs, k :: rest =>
    match lookupTS fs k with
    | some c => getAt c rest
    | none => none
  | .leaf _ _ _, _ :: _ => none

/-- The current primitive value at a path; missing paths (and non-leaf
positions) compare as `null` (spec 4.3). -/
def currentPrimAt (e : TSObj) (path : List String) : JSPrim :=
  match getAt e path with
  | some (.leaf v _ _) => v
  | _ => .null

/-! ## Filter evaluation

Modelled from the spec (section 4.3; `doesEntityObjMatchWhere` lives in
src/packages/db/src/collection-query.ts, not under src/): evaluation
against a timestamped entity uses the current value at each path,
missing paths compare as `null`, `has`/`!has` target set-typed paths
and an unresolved variable has already been rejected by
`replaceVariablesInFilterStatements`. -/

/-- Strict primitive comparison; values of different types do not
compare. -/
def primLt : JSPrim → JSPrim → Bool
  | .num a, .num b => a < b
  | .str a, .str b => a < b
  | .bool a, .bool b => !a && b
  | _, _ => false

/-- The object key under which a set member is stored
(`A = [...setPath, member]`, spec section 3). -/
def keyOfPrim : JSPrim → String
  | .str s => s
  | .num n => toString n
  | .bool b => if b then "true" else "false"
  | .null => "null"

/-- Set membership: the set node has a current `true` leaf for the
member (spec section 3: a `false` value is a tombstone). -/
def setHas (e : TSObj) (path : List String) (v : JSVal) : Bool :=
  match getAt e path, v with
  | some (.node fs), .prim p =>
    match lookupTS fs (keyOfPrim p) with
    | some (.leaf (.bool b) _ _) => b
    | _ => false
  | _, _ => false

/-- SQL-style `like` matching with `%` (any run) and `_` (any single
character) wildcards. -/
def likeMatches : List Char → List Char → Bool
  | [], [] => true
  | [], _ :: _ => false
  | '%' :: ps, s =>
    likeMatches ps s ||
      (match s with
       | [] => false
       | _ :: s2 => likeMatches ('%' :: ps) s2)
  | '_' :: _, [] => false
  | '_' :: ps, _ :: s2 => likeMatches ps s2
  | _ :: _, [] => false
  | c :: ps, c2 :: s2 => c == c2 && likeMatches ps s2

/-- Evaluate one leaf statement against an entity. -/
def matchesStmt (e : TSObj) (path : List String) (op : FOp) (v : JSVal) : Bool :=
  match op with
  | .eq =>
    (match v with
     | .prim p => currentPrimAt e path == p
     | .arr _ => false)
  | .ne =>
    (match v with
     | .prim p => currentPrimAt e path != p
     | .arr _ => true)
  | .lt => (match v with | .prim p => primLt (currentPrimAt e path) p | _ => false)
  | .lte =>
    (match v with
     | .prim p => primLt (currentPrimAt e path) p || currentPrimAt e path == p
     | _ => false)
  | .gt => (match v with | .prim p => primLt p (currentPrimAt e path) | _ => false)
  | .gte =>
    (match v with
     | .prim p => primLt p (currentPrimAt e path) || currentPrimAt e path == p
     | _ => false)
  | .inOp => (match v with | .arr l => l.contains (currentPrimAt e path) | _ => false)
  | .ninOp => (match v with | .arr l => !l.contains (currentPrimAt e path) | _ => true)
  | .has => setHas e path v
  | .nhas => !setHas e path v
  | .like =>
    (match currentPrimAt e path, v with
     | .str s, .prim (.str pat) => likeMatches pat.toList s.toList
     | _, _ => false)

mutual
/-- Evaluate a filter node against a timestamped entity. -/
def matchesFilter (e : TSObj) : Filter → Bool
  | .stmt path op v => matchesStmt e path op v
  | .group mod fs => matchesFilterList e mod fs
/-- Evaluate a group's sub-filters under its connective. -/
def matchesFilterList (e : TSObj) (mod : GroupMod) : FilterList → Bool
  | .nil => match mod with | .and => true | .or => false
  | .cons f rest =>
    match mod with
    | .and => matchesFilter e f && matchesFilterList e mod rest
    | .or => matchesFilter e f || matchesFilterList e mod rest
end

/-- `doesEntityObjMatchWhere` (collection-query.ts): a where-clause is
the conjunction of its filters. -/
def doesEntityObjMatchWhere (e : TSObj) (w : List Filter) : Bool :=
  w.all (matchesFilter e)

/-! ## Entity ids (db.ts lines 968-994) -/

/-- `ID_SEPARATOR = '#'`; `validateExternalId` returns an
`InvalidEntityIdError` when the id contains it (db.ts 970-975). -/
def validateExternalId (id : String) : Option ErrKind :=
  if id.toList.contains '#' then some .invalidEntityId else none

/-- `appendCollectionToId` (db.ts 977-979). -/
def appendCollectionToId (collectionName id : String) : String :=
  collectionName ++ "#" ++ id

/-! ## The database state and transactions

The triple store, its scopes and its transaction machinery live in
src/packages/db/src/triple-store.ts, which is not under src/.
Modelled from the spec (section 5): `transact(cb)` opens a transaction,
reads within it see prior writes, a clean return commits the staged
writes with a single commit timestamp, and a throw cancels them.  The
store is modelled at entity granularity: a map from full entity id to
its timestamped-object materialization (spec 4.1); the
`["_collection"]` marker triple is implicit in the map's keying and is
not needed by any claim below. -/

/-- Database state: the stored schema, the materialized entities and
the logical clock of this client. -/
structure EntState where
  schema : Option SchemaDef
  entities : List (String × TSObj)
  time : Nat
  client : String
  deriving DecidableEq

/-- A staged write: `setValue(id, attribute, value)` (the attribute
carries the collection name as first segment) or a whole-document
insert (`Document.insert`). -/
inductive WriteOp where
  | setVal (id : String) (attrPath : List String) (v : JSPrim)
  | insertDoc (id : String) (collection : String) (doc : PlainObj)
  deriving DecidableEq

/-- Write a leaf at a path inside a timestamped object, creating
intermediate nodes; the new leaf becomes the current value (it carries
the transaction's commit timestamp, which is maximal). -/
def setPath (v : JSPrim) (tick : Nat) (client : String) :
    List String → TSObj → TSObj
  | [], _ => .leaf v tick client
  | k :: rest, o =>
    let fs := match o with | .node fs => fs | .leaf _ _ _ => .nil
    let child := (lookupTS fs k).getD (.node .nil)
    .node (upsertTS fs k (setPath v tick client rest child))

/-- Apply one staged write to the state. -/
def applyWrite (st : EntState) : WriteOp → EntState
  | .setVal id attrP v =>
    let e := (alookup st.entities id).getD (.node .nil)
    { st with
      entities := aupsert st.entities id (setPath v st.time st.client (attrP.drop 1) e) }
  | .insertDoc id _ doc =>
    { st with entities := aupsert st.entities id (wrapPlain st.time st.client doc) }

/-- Apply staged writes in order. -/
def applyWrites (st : EntState) (ws : List WriteOp) : EntState :=
  ws.foldl applyWrite st

/-- An open transaction: the base state plus the staged writes. -/
structure TxState where
  base : EntState
  staged : List WriteOp
  deriving DecidableEq

/-- The state a read inside the transaction observes (prior writes are
visible, spec section 5). -/
def effState (tx : TxState) : EntState :=
  applyWrites tx.base tx.staged

/-- Commit: apply the staged writes (all carrying the base clock as the
single commit timestamp) and advance the clock. -/
def commitTx (tx : TxState) : EntState :=
  let st := effState tx
  { st with time := st.time + 1 }

/-- `tripleStore.transact` (spec section 5): on a clean return the
staged writes commit and the commit timestamp is returned; on a throw
nothing is committed and the exception propagates. -/
def TripleStore.transact (st : EntState)
    (cb : TxState → Except ErrKind TxState) :
    Except ErrKind ((Nat × String) × EntState) :=
  match cb ⟨st, []⟩ with
  | .ok tx => .ok ((st.time, st.client), commitTx tx)
  | .error e => .error e

/-- `DB.transact` (db.ts 619-634): run the callback inside a
triple-store transaction; on a throw the transaction is cancelled (the
state is unchanged) and the same exception is re-raised.  Returns the
result together with the resulting store state. -/
def DB.transact (st : EntState) (cb : TxState → Except ErrKind TxState) :
    Except ErrKind Unit × EntState :=
  match TripleStore.transact st cb with
  | .ok (_, st2) => (.ok (), st2)
  | .error e => (.error e, st)

/-- `getCollectionSchema` (db.ts 154-167 / 588-601): the collection's
definition from the stored schema, when a schema exists.  (The code
spreads a missing collection into `{}`, which carries no rules — the
same observable content as `none` here.) -/
def DB.getCollectionSchema (st : EntState) (c : String) : Option CollectionDef :=
  match st.schema with
  | none => none
  | some s => alookup s.collections c

/-- The result of `fetchById`: the code returns either the plain
(timestamp-stripped) document or — in the read-rules branch — the raw
timestamped entity. -/
inductive FetchedDoc where
  | plain (p : PlainObj)
  | timestamped (e : TSObj)
  deriving DecidableEq, Repr

/-- The write rules of a collection definition, when present. -/
def writeRulesOf (colDef : Option CollectionDef) : Option (List Rule) :=
  match colDef with
  | none => none
  | some cd =>
    match cd.rules with
    | none => none
    | some r => r.write

/-- The read rules of a collection definition, when present. -/
def readRulesOf (colDef : Option CollectionDef) : Option (List Rule) :=
  match colDef with
  | none => none
  | some cd =>
    match cd.rules with
    | none => none
    | some r => r.read

/-- `DBTransaction.fetchById` (db.ts 373-398): `null` when the entity
does not exist; with read rules present the rule filters are resolved
and checked against the timestamped entity, and the *timestamped*
entity itself is returned on a match (`return entity;`, db.ts 391), or
`null` otherwise; without read rules the entity is stripped via
`timestampedObjectToPlainObject`. -/
def DBTransaction.fetchById (tx : TxState) (varMap : List (String × JSVal))
    (c id : String) : Except ErrKind (Option FetchedDoc) :=
  let colDef := DB.getCollectionSchema tx.base c
  match alookup (effState tx).entities (appendCollectionToId c id) with
  | none => .ok none
  | some e =>
    match readRulesOf colDef with
    | some rules =>
      match replaceVariablesInFilterStatements (rules.flatMap Rule.filter) varMap with
      | .error err => .error err
      | .ok whereFilter =>
        if doesEntityObjMatchWhere e whereFilter then .ok (some (.timestamped e))
        else .ok none
    | none => .ok (some (.plain (timestampedObjectToPlainObject e)))

/-- `DB.fetchById` (db.ts 667-691): identical logic to the transaction
variant, reading the store directly. -/
def DB.fetchById (st : EntState) (varMap : List (String × JSVal))
    (c id : String) : Except ErrKind (Option FetchedDoc) :=
  DBTransaction.fetchById ⟨st, []⟩ varMap c id

/-- The write-rule gate shared by `DB.insert` / `DBTransaction.insert`
(db.ts 206-223 / 706-723): skipped when the collection has no
(nonempty) write rules; otherwise the rule filters are resolved and the
candidate timestamped object must match them, else `WriteRuleError` is
thrown. -/
def checkWriteRules (colDef : Option CollectionDef)
    (varMap : List (String × JSVal)) (candidate : TSObj) : Except ErrKind Unit :=
  match writeRulesOf colDef with
  | some ws =>
    if ws.isEmpty then .ok ()
    else
      match replaceVariablesInFilterStatements (ws.flatMap Rule.filter) varMap with
      | .error err => .error err
      | .ok filters =>
        if doesEntityObjMatchWhere candidate filters then .ok ()
        else .error .writeRule
  | none => .ok ()

/-- `Document.insert` (document.ts, not under src/; spec 4.1): stage
the document's triples under the given full entity id. -/
def Document.insert (tx : TxState) (fullId : String) (doc : PlainObj)
    (collectionName : String) : TxState :=
  { tx with staged := tx.staged ++ [.insertDoc fullId collectionName doc] }

/-- `DB.insert` (db.ts 693-734): a supplied id is validated first
(`InvalidEntityId` when it contains `#`, before anything is written);
the write rules are checked against the wrapped document; then a
transaction stages the document under `collection#id` — with `nanoid()`
(modelled by `genId`) when the id was omitted — and its commit
timestamp is returned. -/
def DB.insert (st : EntState) (varMap : List (String × JSVal)) (c : String)
    (doc : PlainObj) (id : Option String) (genId : String) :
    Except ErrKind (Nat × String) × EntState :=
  let body : Except ErrKind (Nat × String) × EntState :=
    match checkWriteRules (DB.getCollectionSchema st c) varMap
        (objectToTimestampedObject doc) with
    | .error e => (.error e, st)
    | .ok () =>
      match TripleStore.transact st
          (fun tx =>
            .ok (Document.insert tx (appendCollectionToId c (id.getD genId)) doc c)) with
      | .ok (ts, st2) => (.ok ts, st2)
      | .error e => (.error e, st)
  match id with
  | some s =>
    match validateExternalId s with
    | some e => (.error e, st)
    | none => body
  | none => body

/-! ## The update path (db.ts 232-351) -/

/-- `getSchemaFromPath` (schema.ts, not under src/): descend the
attribute map along the path; record fields recurse, a set admits one
further member segment, anything else is unknown. -/
def getSchemaFromPath : FieldList → List String → Option AttributeDescriptor
  | _, [] => none
  | m, [k] => lookupF m k
  | m, k :: rest =>
    match lookupF m k with
    | some (.record fs _) => getSchemaFromPath fs rest
    | some (.set item _ _) => if rest.length == 1 then some item else none
    | _ => none

/-- Split a change-tracker prop pointer into path segments
(`path.slice(1).split('/')`, db.ts 263). -/
def splitPointer (ptr : String) : List String :=
  (splitChars '/' (ptr.toList.drop 1)).map String.mk

/-- The `set` trap of `createUpdateProxy` (db.ts 291-309): build the
prop pointer; without a schema the assignment is staged directly; with
a schema an unrecognized path throws a plain
`Error('Cannot set unrecognized property ...')` (the code's own TODO
notes it should be a typed Triplit error) before anything is staged;
a recognized path stages the assignment. -/
def createUpdateProxySet (schema : Option FieldList)
    (changeTracker : List (String × JSPrim)) (pre prop : String)
    (value : JSPrim) : Except ErrKind (List (String × JSPrim)) :=
  let propPointer := pre ++ "/" ++ prop
  match schema with
  | none => .ok (aupsert changeTracker propPointer value)
  | some m =>
    match getSchemaFromPath m (splitPointer propPointer) with
    | none =>
      .error (.genericError ("Cannot set unrecognized property " ++ propPointer))
    | some _ => .ok (aupsert changeTracker propPointer value)

mutual
/-- Render a timestamped object as the plain object JS sees when the
already-timestamped entity is fed into `objectToTimestampedObject`
again: each leaf becomes a `{ value, timestamp }` node (the timestamp
array keyed by index).  This only happens on the degenerate read-rules
path of the update re-fetch (see `rewrapFetched`). -/
def doubleWrap : TSObj → TSObj
  | .leaf v tick cl =>
    .node (.cons "value" (.leaf v 0 "")
      (.cons "timestamp"
        (.node (.cons "0" (.leaf (.num (Int.ofNat tick)) 0 "")
          (.cons "1" (.leaf (.str cl) 0 "") .nil))) .nil))
  | .node fs => .node (doubleWrapFields fs)
/-- `doubleWrap` across a field map. -/
def doubleWrapFields : TSFields → TSFields
  | .nil => .nil
  | .cons k o rest => .cons k (doubleWrap o) (doubleWrapFields rest)
end

/-- `objectToTimestampedObject(updatedEntity)` at db.ts 273: the
re-fetched entity is plain when the collection has no read rules;
with read rules `fetchById` returns the raw timestamped entity (see
`DBTransaction.fetchById`) and the wrapping degenerates; a `null`
re-fetch is degenerate as well and modelled as an empty node. -/
def rewrapFetched : Option FetchedDoc → TSObj
  | some (.plain p) => objectToTimestampedObject p
  | some (.timestamped e) => doubleWrap e
  | none => .node .nil

/-- `DBTransaction.update` (db.ts 232-282): fetch the entity
(`EntityNotFound` when absent), stage one `setValue` per change-tracker
entry under `[collectionName, ...path]`, then — when the collection has
(nonempty) write rules — re-fetch the entity, resolve the rule filters
and require the re-wrapped post-update entity to match them, throwing
`WriteRuleError` otherwise.  The mutator's observable effect is its
final change-tracker contents, passed here as `changes`. -/
def DBTransaction.update (tx : TxState) (varMap : List (String × JSVal))
    (c id : String) (changes : List (String × JSPrim)) :
    Except ErrKind TxState :=
  let colDef := DB.getCollectionSchema tx.base c
  match DBTransaction.fetchById tx varMap c id with
  | .error e => .error e
  | .ok none => .error .entityNotFound
  | .ok (some _) =>
    let fullId := appendCollectionToId c id
    let tx2 : TxState :=
      { tx with
        staged := tx.staged ++
          changes.map (fun ch => WriteOp.setVal fullId (c :: splitPointer ch.1) ch.2) }
    match writeRulesOf colDef with
    | some ws =>
      if ws.isEmpty then .ok tx2
      else
        match DBTransaction.fetchById tx2 varMap c id with
        | .error e => .error e
        | .ok updated =>
          match replaceVariablesInFilterStatements (ws.flatMap Rule.filter) varMap with
          | .error e => .error e
          | .ok filters =>
            if doesEntityObjMatchWhere (rewrapFetched updated) filters then .ok tx2
            else .error .writeRule
    | none => .ok tx2

/-- `DB.update` (db.ts 803-815): run `DBTransaction.update` inside
`DB.transact`. -/
def DB.update (st : EntState) (varMap : List (String × JSVal)) (c id : String)
    (changes : List (String × JSPrim)) : Except ErrKind Unit × EntState :=
  DB.transact st (fun tx => DBTransaction.update tx varMap c id changes)

/-! ## Triple-level store model (schema operations and migrations)

The schema operations (db.ts 400-521) and the migration executor
(db.ts 864-966) work on `_schema` metadata tuples and raw data triples
across storage scopes.  The triple store itself
(src/packages/db/src/triple-store.ts) is not under src/; its tuple
primitives (`readMetadataTuples`, `updateMetadataTuples`,
`deleteMetadataTuples`, `findByAttribute`, `deleteTriples`,
`insertTriples`, `readSchema`) are modelled from the spec (sections 3
and 5): metadata is the `_schema` EAV subtree keyed by attribute path,
`findByAttribute` range-scans by attribute-path prefix, and a
transaction commits all of its writes or none. -/

/-- A data triple `(E, A, V, T, expired?)` (spec section 3). -/
structure TripleRow where
  id : String
  attrPath : List String
  value : JSPrim
  tick : Nat
  client : String
  expired : Bool
  deriving DecidableEq, Repr

/-- A `_schema` tuple value: a primitive, or a rule's filter list (the
value of a `filter` entry written by `ruleToTuple`, db.ts 131-142). -/
inductive MetaVal where
  | prim (p : JSPrim)
  | filters (l : List Filter)
  deriving DecidableEq

instance : Inhabited MetaVal := ⟨.prim .null⟩

/-- The triple store: data triples per storage scope plus the `_schema`
metadata tuples (attribute path → value). -/
structure TStore where
  scopes : List (String × List TripleRow)
  metadata : List (List String × MetaVal)
  deriving DecidableEq

/-- `readMetadataTuples('_schema', attrPre)`: the `_schema` tuples whose
attribute starts with the given segments. -/
def readMetadataTuples (st : TStore) (attrPre : List String) :
    List (List String × MetaVal) :=
  st.metadata.filter (fun t => segsMatch attrPre t.1)

/-- `updateMetadataTuples`: upsert each tuple by attribute path. -/
def updateMetadataTuples (st : TStore)
    (tuples : List (List String × MetaVal)) : TStore :=
  { st with metadata := tuples.foldl (fun md t => aupsert md t.1 t.2) st.metadata }

/-- `deleteMetadataTuples`: drop the tuples with the given attribute
paths. -/
def deleteMetadataTuples (st : TStore) (attrs : List (List String)) : TStore :=
  { st with metadata := st.metadata.filter (fun t => ¬ attrs.contains t.1) }

/-- The stored schema version (`readSchema`/`tripleSchema?.version`):
present iff the `["version"]` tuple holds a number.  The spec directs
a partially-written `_schema` subtree to be treated as "no schema". -/
def readSchemaVersion (st : TStore) : Option Int :=
  match alookup st.metadata ["version"] with
  | some (.prim (.num n)) => some n
  | _ => none

/-- `const dbVersion = tripleSchema?.version ?? 0` (db.ts 896). -/
def dbVersion (st : TStore) : Int :=
  (readSchemaVersion st).getD 0

/-- `if (await this.getSchema())` — a schema exists. -/
def hasSchema (st : TStore) : Bool :=
  (readSchemaVersion st).isSome

/-- `transformTripleAttribute` (db.ts 955-966): replace the first
`attribute.length` segments of each triple's attribute by
`newAttribute` (the `splice(0, attribute.length, ...newAttribute)`). -/
def transformTripleAttribute (triples : List TripleRow)
    (oldAttr newAttr : List String) : List TripleRow :=
  triples.map (fun t =>
    { t with attrPath := newAttr ++ t.attrPath.drop oldAttr.length })

/-- A migration operation (db.ts 69-96).  `unknownOp` stands for an
operation tag outside the recognized five, which
`applyRemoteTransaction`'s `default` branch rejects. -/
inductive DBOperation where
  | createCollection (name : String) (attributes : List (String × String))
      (rules : Option CollectionRules)
  | dropCollection (name : String)
  | addAttribute (collection path attrType : String)
  | dropAttribute (collection path : String)
  | renameAttribute (collection path newPath : String)
  | unknownOp (tag : String)
  deriving DecidableEq

/-- `ruleToTuple` (db.ts 131-142): one `_schema` tuple per entry of the
rule object. -/
def ruleToTuple (collectionName : String) (ruleType : String) (index : Nat)
    (rule : Rule) : List (List String × MetaVal) :=
  [( ["collections", collectionName, "rules", ruleType, toString index, "filter"],
     MetaVal.filters rule.filter )]
  ++ (match rule.description with
      | some d =>
        [( ["collections", collectionName, "rules", ruleType, toString index,
            "description"], MetaVal.prim (.str d) )]
      | none => [])

/-- The rule tuples of one rule list. -/
def ruleTuplesFor (collectionName ruleType : String) (rules : Option (List Rule)) :
    List (List String × MetaVal) :=
  match rules with
  | none => []
  | some l =>
    (l.enum.map (fun ri => ruleToTuple collectionName ruleType ri.1 ri.2)).flatten

/-- `DBTransaction.createCollection` (db.ts 400-423): upsert one `type`
tuple per attribute plus the rule tuples (the code iterates rule types
`read`, `write`, `update`; `update` is never present on
`CollectionRules`). -/
def DBTransaction.createCollection (st : TStore) (name : String)
    (attributes : List (String × String)) (rules : Option CollectionRules) :
    TStore :=
  let attributeTuples := attributes.map (fun pa =>
    ( ["collections", name, "attributes", pa.1, "type"],
      MetaVal.prim (.str pa.2) ))
  let ruleTuples :=
    ruleTuplesFor name "read" (rules.bind (·.read))
    ++ ruleTuplesFor name "write" (rules.bind (·.write))
  updateMetadataTuples st (attributeTuples ++ ruleTuples)

/-- `DBTransaction.dropCollection` (db.ts 425-442): delete the
collection's `_schema` subtree; the data-triple purge is commented out
in the source. -/
def DBTransaction.dropCollection (st : TStore) (name : String) : TStore :=
  deleteMetadataTuples st ((readMetadataTuples st ["collections", name]).map (·.1))

/-- `DBTransaction.addAttribute` (db.ts 486-499): upsert the
attribute's `type` tuple, only when a schema exists. -/
def DBTransaction.addAttribute (st : TStore) (collection path attrType : String) :
    TStore :=
  if hasSchema st then
    updateMetadataTuples st
      [( ["collections", collection, "attributes", path, "type"],
         MetaVal.prim (.str attrType) )]
  else st

/-- `DBTransaction.dropAttribute` (db.ts 501-520): delete the
attribute's `_schema` subtree, only when a schema exists; the
data-triple purge is commented out in the source. -/
def DBTransaction.dropAttribute (st : TStore) (collection path : String) : TStore :=
  if hasSchema st then
    deleteMetadataTuples st
      ((readMetadataTuples st ["collections", collection, "attributes", path]).map (·.1))
  else st

/-- The `attr.splice(3, 1, newPath)` of `renameAttribute` (db.ts 460):
replace the fourth segment (the attribute path after the
`['collections', c, 'attributes']` head) by the new path. -/
def spliceAttrSegment (a : List String) (newPath : String) : List String :=
  a.take 3 ++ [newPath] ++ a.drop 4

/-- `DBTransaction.renameAttribute` (db.ts 444-484): when a schema
exists, delete the attribute's `_schema` tuples and upsert them with
the renamed path; then, for every storage scope, find the data triples
whose attribute starts with `[collection, path]`, delete them and
insert them with the head segments replaced by
`[collection, newPath]`. -/
def DBTransaction.renameAttribute (st : TStore)
    (collection path newPath : String) : TStore :=
  let st1 :=
    if hasSchema st then
      let existing :=
        readMetadataTuples st ["collections", collection, "attributes", path]
      let deletes := existing.map (·.1)
      let updates := existing.map (fun t => (spliceAttrSegment t.1 newPath, t.2))
      updateMetadataTuples (deleteMetadataTuples st deletes) updates
    else st
  { st1 with
    scopes := st1.scopes.map (fun sc =>
      let current := sc.2.filter (fun t => segsMatch [collection, path] t.attrPath)
      let kept := sc.2.filter (fun t => ¬ segsMatch [collection, path] t.attrPath)
      (sc.1, kept ++ transformTripleAttribute current [collection, path]
                      [collection, newPath])) }

/-- Dispatch one migration operation
(`applyRemoteTransaction`'s `switch`, db.ts 867-889): an unrecognized
operation throws `InvalidMigrationOperationError`. -/
def applyOperation (st : TStore) : DBOperation → Except ErrKind TStore
  | .createCollection n a r => .ok (DBTransaction.createCollection st n a r)
  | .dropCollection n => .ok (DBTransaction.dropCollection st n)
  | .addAttribute c p ty => .ok (DBTransaction.addAttribute st c p ty)
  | .dropAttribute c p => .ok (DBTransaction.dropAttribute st c p)
  | .renameAttribute c p q => .ok (DBTransaction.renameAttribute st c p q)
  | .unknownOp _ => .error .invalidMigrationOperation

/-- Run a migration's operations in sequence; the first failure aborts. -/
def applyOps (st : TStore) : List DBOperation → Except ErrKind TStore
  | [] => .ok st
  | op :: rest =>
    match applyOperation st op with
    | .error e => .error e
    | .ok st2 => applyOps st2 rest

/-- `DB.applyRemoteTransaction` (db.ts 864-891): the operations run
inside one triple-store transaction — on success the resulting state
commits as a whole, on a throw nothing commits and the error
propagates. -/
def DB.applyRemoteTransaction (st : TStore) (operations : List DBOperation) :
    Except ErrKind TStore :=
  applyOps st operations

/-- Migration direction. -/
inductive Direction where
  | up | down
  deriving DecidableEq

/-- A migration (db.ts 98-103). -/
structure Migration where
  up : List DBOperation
  down : List DBOperation
  version : Int
  parent : Int
  deriving DecidableEq

/-- The operation list a direction selects. -/
def Migration.ops (m : Migration) : Direction → List DBOperation
  | .up => m.up
  | .down => m.down

/-- `canMigrate` (db.ts 943-953). -/
def canMigrate (migration : Migration) (direction : Direction)
    (dbVersion : Int) : Bool :=
  match direction with
  | .up => migration.parent == dbVersion
  | .down => migration.version == dbVersion

/-- Upsert the `_schema` `["version"]` tuple (db.ts 909-915). -/
def setVersionMeta (st : TStore) (v : Int) : TStore :=
  updateMetadataTuples st [(["version"], MetaVal.prim (.num v))]

/-- One iteration of `DB.migrate`'s loop (db.ts 894-919) on a single
migration.  Returns the outcome together with the list of *committed*
states, in commit order: when the gate passes and the operations
succeed, `applyRemoteTransaction` commits the operations in one
transaction and the version tuple is then advanced by a separate
`tripleStore.updateMetadataTuples` call outside that transaction (the
code's own `// TODO: move this into the transaction` marks it), so two
distinct states commit; when an operation throws, the error is logged
and rethrown and nothing commits; when the gate fails the migration is
skipped. -/
def DB.migrateOne (st : TStore) (migration : Migration) (direction : Direction) :
    Except ErrKind TStore × List TStore :=
  let v := dbVersion st
  if canMigrate migration direction v then
    match DB.applyRemoteTransaction st (migration.ops direction) with
    | .error e => (.error e, [])
    | .ok st1 =>
      let st2 := setVersionMeta st1
        (match direction with | .up => migration.version | .down => migration.parent)
      (.ok st2, [st1, st2])
  else (.ok st, [])

/-- `DB.migrate` (db.ts 893-920): process the migrations in order,
re-reading the version each time; the first operation error stops the
loop (rethrow). -/
def DB.migrate (st : TStore) (migrations : List Migration)
    (direction : Direction) : Except ErrKind TStore × List TStore :=
  match migrations with
  | [] => (.ok st, [])
  | m :: rest =>
    match DB.migrateOne st m direction with
    | (.error e, tr) => (.error e, tr)
    | (.ok st1, tr) =>
      match DB.migrate st1 rest direction with
      | (res, tr2) => (res, tr ++ tr2)

/-! ## Concrete fixtures

Small concrete schemas, entities and states used by the witness and
evaluation theorems below. -/

/-- A read rule `title = "x"`. -/
def sampleReadRule : Rule := ⟨[.stmt ["title"] .eq (.prim (.str "x"))], none⟩

/-- A collection with one read rule and no write rules. -/
def readRulesCollection : CollectionDef := ⟨.nil, some ⟨some [sampleReadRule], none⟩, none⟩

/-- A collection without rules. -/
def noRulesCollection : CollectionDef := ⟨.nil, none, none⟩

/-- An entity `{ title: "x" }` with a leaf timestamp. -/
def titleEntity : TSObj := .node (.cons "title" (.leaf (.str "x") 1 "a") .nil)

/-- A state whose `posts` collection carries the read rule, holding
`posts#1 = titleEntity`. -/
def readRulesState : EntState :=
  ⟨some ⟨0, [("posts", readRulesCollection)], none⟩, [("posts#1", titleEntity)], 5, "me"⟩

/-- The same state with a rule-less `posts` collection. -/
def noRulesState : EntState :=
  ⟨some ⟨0, [("posts", noRulesCollection)], none⟩, [("posts#1", titleEntity)], 5, "me"⟩

/-- A schema with a single known attribute `name : string`. -/
def nameOnlySchema : FieldList :=
  .cons "name" (.leaf .string ⟨false, none, none⟩ false) .nil

/-- A write rule `name = "ok"`. -/
def nameWriteRule : Rule := ⟨[.stmt ["name"] .eq (.prim (.str "ok"))], none⟩

/-- A collection with one write rule and no read rules. -/
def writeRulesCollection : CollectionDef := ⟨.nil, some ⟨none, some [nameWriteRule]⟩, none⟩

/-- An entity `{ name: "ok" }`. -/
def nameEntity : TSObj := .node (.cons "name" (.leaf (.str "ok") 1 "a") .nil)

/-- A state whose `users` collection carries the write rule, holding
`users#1 = nameEntity`. -/
def writeRulesState : EntState :=
  ⟨some ⟨0, [("users", writeRulesCollection)], none⟩, [("users#1", nameEntity)], 5, "me"⟩

/-- The plain document `{ name: "ok" }`. -/
def sampleDoc : PlainObj := .node (.cons "name" (.leaf (.str "ok")) .nil)

/-- A migration creating a `todos` collection (version 0 → 1). -/
def todosMigration : Migration :=
  ⟨[.createCollection "todos" [("text", "string")] none], [], 1, 0⟩

/-- The same migration with a trailing unrecognized operation. -/
def badOpMigration : Migration :=
  ⟨[.createCollection "todos" [("text", "string")] none, .unknownOp "bad_op"], [], 1, 0⟩

/-- An empty store at schema version 0. -/
def versionZeroStore : TStore := ⟨[], [(["version"], .prim (.num 0))]⟩

/-- The state `applyRemoteTransaction` commits for `todosMigration`:
the collection metadata is written, the version tuple still reads 0. -/
def opsCommitState : TStore :=
  ⟨[], [(["version"], .prim (.num 0)),
        (["collections", "todos", "attributes", "text", "type"], .prim (.str "string"))]⟩

/-- The state the separate version write commits afterwards. -/
def versionCommitState : TStore :=
  ⟨[], [(["version"], .prim (.num 1)),
        (["collections", "todos", "attributes", "text", "type"], .prim (.str "string"))]⟩

/-- The transaction `DBTransaction.update` builds after staging the
mutator's changes (db.ts 260-266): one `setValue` per change-tracker
entry. -/
def stagedUpdateTx (st : EntState) (c id : String)
    (changes : List (String × JSPrim)) : TxState :=
  ⟨st, changes.map (fun ch => WriteOp.setVal (appendCollectionToId c id)
        (c :: splitPointer ch.1) ch.2)⟩

/-- The re-fetch of the entity after staging (db.ts 268). -/
def postUpdateFetch (st : EntState) (varMap : List (String × JSVal))
    (c id : String) (changes : List (String × JSPrim)) :
    Except ErrKind (Option FetchedDoc) :=
  DBTransaction.fetchById (stagedUpdateTx st c id changes) varMap c id

/-- A store with one scope holding a triple under attribute
`["c", "p", "x"]` and one under `["c", "z"]`, plus `_schema` tuples for
attribute `p`. -/
def renameStore : TStore :=
  ⟨[("default",
     [⟨"c#1", ["c", "p", "x"], .str "v", 1, "cl", false⟩,
      ⟨"c#1", ["c", "z"], .str "w", 1, "cl", false⟩])],
   [(["version"], .prim (.num 0)),
    (["collections", "c", "attributes", "p", "type"], .prim (.str "string"))]⟩

/-- The serialized `S.Id()` descriptor. -/
def idDescriptor : AttributeDescriptor :=
  .leaf .id ⟨false, some ⟨"uuid", none⟩, none⟩ false

/-- A plain string descriptor. -/
def stringDescriptor : AttributeDescriptor := .leaf .string ⟨false, none, none⟩ false

/-- A plain number descriptor. -/
def numberDescriptor : AttributeDescriptor := .leaf .number ⟨false, none, none⟩ false

/-- A collection holding only an id attribute. -/
def firstCollection : CollectionDef := ⟨.cons "id" idDescriptor .nil, none, none⟩

/-- `{ first: {id} }` (the diff test's smaller schema). -/
def schemaOne : SchemaDef := ⟨0, [("first", firstCollection)], none⟩

/-- `{ first: {id}, second: {id} }`. -/
def schemaTwo : SchemaDef :=
  ⟨0, [("first", firstCollection), ("second", firstCollection)], none⟩

/-- `{ t: { x: string } }`. -/
def schemaStr : SchemaDef :=
  ⟨0, [("t", ⟨.cons "x" stringDescriptor .nil, none, none⟩)], none⟩

/-- `{ t: { x: number } }`. -/
def schemaNum : SchemaDef :=
  ⟨0, [("t", ⟨.cons "x" numberDescriptor .nil, none, none⟩)], none⟩

/-! ## Helper lemmas -/

theorem alookup_aupsert_self {κ α : Type} [DecidableEq κ]
    (l : List (κ × α)) (k : κ) (v : α) : alookup (aupsert l k v) k = some v := by
  induction l with
  | nil => simp [aupsert, alookup]
  | cons h t ih =>
    obtain ⟨k2, w⟩ := h
    by_cases hk : k2 = k
    · subst hk; simp [aupsert, alookup]
    · simp [aupsert, alookup, hk, ih]

theorem mem_aupsert_self {κ α : Type} [DecidableEq κ]
    (l : List (κ × α)) (k : κ) (v : α) : (k, v) ∈ aupsert l k v := by
  induction l with
  | nil => simp [aupsert]
  | cons h t ih =>
    obtain ⟨k2, w⟩ := h
    by_cases hk : k2 = k
    · subst hk; simp [aupsert]
    · simp only [aupsert, if_neg hk]
      exact List.mem_cons_of_mem _ ih

theorem mem_aupsert_of_ne {κ α : Type} [DecidableEq κ]
    {l : List (κ × α)} {k2 : κ} {w : α} (k : κ) (v : α)
    (h : (k2, w) ∈ l) (hne : k2 ≠ k) : (k2, w) ∈ aupsert l k v := by
  induction l with
  | nil => simp at h
  | cons hd t ih =>
    obtain ⟨k3, u⟩ := hd
    rcases List.mem_cons.1 h with h1 | h1
    · obtain ⟨rfl, rfl⟩ := Prod.mk.injEq .. ▸ h1
      have : k2 ≠ k := hne
      simp only [aupsert, if_neg this]
      exact List.mem_cons_self _ _
    · by_cases hk : k3 = k
      · subst hk
        simp only [aupsert, if_pos rfl]
        exact List.mem_cons_of_mem _ h1
      · simp only [aupsert, if_neg hk]
        exact List.mem_cons_of_mem _ (ih h1)

theorem mem_aupsert_cases {κ α : Type} [DecidableEq κ]
    {l : List (κ × α)} {x : κ × α} {k : κ} {v : α}
    (h : x ∈ aupsert l k v) : x ∈ l ∨ x.1 = k := by
  induction l with
  | nil => simp [aupsert] at h; simp [h]
  | cons hd t ih =>
    obtain ⟨k3, u⟩ := hd
    by_cases hk : k3 = k
    · subst hk
      simp only [aupsert, if_pos rfl] at h
      rcases List.mem_cons.1 h with h1 | h1
      · right; simp [h1]
      · left; exact List.mem_cons_of_mem _ h1
    · simp only [aupsert, if_neg hk] at h
      rcases List.mem_cons.1 h with h1 | h1
      · left; simp [h1]
      · rcases ih h1 with h2 | h2
        · left; exact List.mem_cons_of_mem _ h2
        · right; exact h2

/-- The metadata-upsert fold used by `updateMetadataTuples`. -/
theorem mem_foldl_aupsert_of_not_mem {κ α : Type} [DecidableEq κ]
    {k : κ} {v : α} :
    ∀ (updates : List (κ × α)) (md : List (κ × α)),
      (k, v) ∈ md → k ∉ updates.map Prod.fst →
      (k, v) ∈ updates.foldl (fun acc t => aupsert acc t.1 t.2) md
  | [], md, hmem, _ => hmem
  | (k2, w) :: rest, md, hmem, hnot => by
    simp only [List.map_cons, List.mem_cons] at hnot
    push_neg at hnot
    simp only [List.foldl_cons]
    exact mem_foldl_aupsert_of_not_mem rest _
      (mem_aupsert_of_ne k2 w hmem hnot.1) hnot.2

theorem mem_foldl_aupsert_of_nodup {κ α : Type} [DecidableEq κ] :
    ∀ (updates : List (κ × α)) (md : List (κ × α)) (k : κ) (v : α),
      (updates.map Prod.fst).Nodup → (k, v) ∈ updates →
      (k, v) ∈ updates.foldl (fun acc t => aupsert acc t.1 t.2) md
  | [], _, _, _, _, hmem => by simp at hmem
  | (k2, w) :: rest, md, k, v, hnd, hmem => by
    simp only [List.map_cons, List.nodup_cons] at hnd
    rcases List.mem_cons.1 hmem with h1 | h1
    · obtain ⟨rfl, rfl⟩ := Prod.mk.injEq .. ▸ h1
      simp only [List.foldl_cons]
      exact mem_foldl_aupsert_of_not_mem rest _ (mem_aupsert_self md k v) hnd.1
    · simp only [List.foldl_cons]
      exact mem_foldl_aupsert_of_nodup rest _ k v hnd.2 h1

theorem mem_foldl_aupsert_cases {κ α : Type} [DecidableEq κ] :
    ∀ (updates : List (κ × α)) (md : List (κ × α)) (x : κ × α),
      x ∈ updates.foldl (fun acc t => aupsert acc t.1 t.2) md →
      x ∈ md ∨ x.1 ∈ updates.map Prod.fst
  | [], _, _, h => Or.inl h
  | (k2, w) :: rest, md, x, h => by
    simp only [List.foldl_cons] at h
    rcases mem_foldl_aupsert_cases rest _ x h with h1 | h1
    · rcases mem_aupsert_cases h1 with h2 | h2
      · exact Or.inl h2
      · right; simp [h2]
    · right; simp only [List.map_cons, List.mem_cons]; right; exact h1

theorem segsMatch_iff (pat l : List String) :
    segsMatch pat l = true ↔ l.take pat.length = pat := by
  simp [segsMatch]

theorem segsMatch_decomp {pat l : List String} (h : segsMatch pat l = true) :
    l = pat ++ l.drop pat.length := by
  conv_lhs => rw [← List.take_append_drop pat.length l]
  rw [(segsMatch_iff pat l).1 h]

theorem segsMatch_two_false {c p q : String} (hpq : p ≠ q) (x : List String) :
    segsMatch [c, p] ([c, q] ++ x) = false := by
  simp [segsMatch]
  exact fun h => absurd h.symm hpq

theorem segsMatch_splice_false {c p q : String} (hpq : p ≠ q) (x : List String) :
    segsMatch ["collections", c, "attributes", p]
      (["collections", c, "attributes", q] ++ x) = false := by
  simp [segsMatch]
  exact fun h => absurd h.symm hpq

/-- A metadata attribute matching the
`["collections", c, "attributes", p]` subtree splices to the same
attribute under `q`, keeping its tail. -/
theorem spliceAttrSegment_decomp {c p : String} {a : List String} (q : String)
    (h : segsMatch ["collections", c, "attributes", p] a = true) :
    spliceAttrSegment a q = ["collections", c, "attributes", q] ++ a.drop 4
    ∧ a = ["collections", c, "attributes", p] ++ a.drop 4 := by
  have hd := segsMatch_decomp h
  simp only [List.length_cons, List.length_nil] at hd
  constructor
  · conv_lhs => rw [spliceAttrSegment, hd]
    simp
  · exact hd

/-- Splicing is injective on the attributes of the renamed subtree. -/
theorem spliceAttrSegment_inj {c p : String} {a a2 : List String} {q : String}
    (ha : segsMatch ["collections", c, "attributes", p] a = true)
    (ha2 : segsMatch ["collections", c, "attributes", p] a2 = true)
    (heq : spliceAttrSegment a q = spliceAttrSegment a2 q) : a = a2 := by
  obtain ⟨hs1, hd1⟩ := spliceAttrSegment_decomp q ha
  obtain ⟨hs2, hd2⟩ := spliceAttrSegment_decomp q ha2
  rw [hs1, hs2] at heq
  have : a.drop 4 = a2.drop 4 := List.append_cancel_left heq
  rw [hd1, hd2, this]

/-! ## Diff-engine lemmas (claim C1)

Membership introduction and elimination for the walks of the diff
engine, followed by the symmetry induction. -/

theorem lookupF_cons_ne {k0 k : String} (d0 : AttributeDescriptor)
    (rest : FieldList) (h : k0 ≠ k) :
    lookupF (.cons k0 d0 rest) k = lookupF rest k := by
  simp [lookupF, h]

theorem sizeOf_lookupF {k : String} {d : AttributeDescriptor} :
    ∀ (fl : FieldList), lookupF fl k = some d → sizeOf d < sizeOf fl
  | .nil, h => by simp [lookupF] at h
  | .cons k2 d2 rest, h => by
    simp only [lookupF] at h
    split at h
    · cases h; simp; omega
    · have := sizeOf_lookupF rest h
      simp
      omega

theorem one_le_sizeOf_descriptor (o : AttributeDescriptor) : 1 ≤ sizeOf o := by
  cases o <;> simp

/-- Elimination for the old-side field walk: every emitted record comes
from a key of `fo` not yet seen, paired by lookup against `fn`. -/
theorem mem_diffFieldsOld_elim {c : String} {path : List String} {x : AttrDiff} :
    ∀ (seen : List String) (fo fn : FieldList),
      x ∈ diffFieldsOld c path seen fo fn →
      ∃ k d, k ∉ seen ∧ lookupF fo k = some d ∧
        ((∃ d2, lookupF fn k = some d2 ∧ x ∈ diffAttribute c (path ++ [k]) d d2)
          ∨ (lookupF fn k = none ∧ x = mkDelete c (path ++ [k]) d))
  | seen, .nil, fn, hx => by simp [diffFieldsOld] at hx
  | seen, .cons k0 d0 rest, fn, hx => by
    by_cases hs : k0 ∈ seen
    · simp only [diffFieldsOld, if_pos hs] at hx
      obtain ⟨k, d, hk, hl, hrest⟩ := mem_diffFieldsOld_elim seen rest fn hx
      have hne : k0 ≠ k := fun h => hk (h ▸ hs)
      exact ⟨k, d, hk, by rw [lookupF_cons_ne d0 rest hne]; exact hl, hrest⟩
    · simp only [diffFieldsOld, if_neg hs] at hx
      rcases List.mem_append.1 hx with hh | ht
      · refine ⟨k0, d0, hs, by simp [lookupF], ?_⟩
        cases hl : lookupF fn k0 with
        | some d2 => rw [hl] at hh; exact Or.inl ⟨d2, rfl, hh⟩
        | none =>
          rw [hl] at hh
          simp only [List.mem_singleton] at hh
          exact Or.inr ⟨rfl, hh⟩
      · obtain ⟨k, d, hk, hl, hrest⟩ := mem_diffFieldsOld_elim (k0 :: seen) rest fn ht
        have hne : k0 ≠ k := fun h => hk (h ▸ List.mem_cons_self k0 seen)
        refine ⟨k, d, fun hmem => hk (List.mem_cons_of_mem _ hmem), ?_, hrest⟩
        rw [lookupF_cons_ne d0 rest hne]; exact hl

/-- Introduction for the old-side walk, paired case. -/
theorem mem_diffFieldsOld_intro_pair {c : String} {path : List String}
    {x : AttrDiff} {k : String} {d d2 : AttributeDescriptor} :
    ∀ (seen : List String) (fo fn : FieldList),
      k ∉ seen → lookupF fo k = some d → lookupF fn k = some d2 →
      x ∈ diffAttribute c (path ++ [k]) d d2 →
      x ∈ diffFieldsOld c path seen fo fn
  | seen, .nil, fn, _, hl, _, _ => by simp [lookupF] at hl
  | seen, .cons k0 d0 rest, fn, hk, hl, hl2, hx => by
    by_cases hke : k0 = k
    · subst hke
      simp only [lookupF, if_pos rfl] at hl
      cases hl
      simp only [diffFieldsOld, if_neg hk, hl2]
      exact List.mem_append_left _ hx
    · rw [lookupF_cons_ne d0 rest hke] at hl
      by_cases hs : k0 ∈ seen
      · simp only [diffFieldsOld, if_pos hs]
        exact mem_diffFieldsOld_intro_pair seen rest fn hk hl hl2 hx
      · simp only [diffFieldsOld, if_neg hs]
        refine List.mem_append_right _ ?_
        refine mem_diffFieldsOld_intro_pair (k0 :: seen) rest fn ?_ hl hl2 hx
        intro hmem
        rcases List.mem_cons.1 hmem with h | h
        · exact hke h.symm
        · exact hk h

/-- Introduction for the old-side walk, delete case. -/
theorem mem_diffFieldsOld_intro_del {c : String} {path : List String}
    {k : String} {d : AttributeDescriptor} :
    ∀ (seen : List String) (fo fn : FieldList),
      k ∉ seen → lookupF fo k = some d → lookupF fn k = none →
      mkDelete c (path ++ [k]) d ∈ diffFieldsOld c path seen fo fn
  | seen, .nil, fn, _, hl, _ => by simp [lookupF] at hl
  | seen, .cons k0 d0 rest, fn, hk, hl, hl2 => by
    by_cases hke : k0 = k
    · subst hke
      simp only [lookupF, if_pos rfl] at hl
      cases hl
      simp only [diffFieldsOld, if_neg hk, hl2]
      exact List.mem_append_left _ (List.mem_singleton.2 rfl)
    · rw [lookupF_cons_ne d0 rest hke] at hl
      by_cases hs : k0 ∈ seen
      · simp only [diffFieldsOld, if_pos hs]
        exact mem_diffFieldsOld_intro_del seen rest fn hk hl hl2
      · simp only [diffFieldsOld, if_neg hs]
        refine List.mem_append_right _ ?_
        refine mem_diffFieldsOld_intro_del (k0 :: seen) rest fn ?_ hl hl2
        intro hmem
        rcases List.mem_cons.1 hmem with h | h
        · exact hke h.symm
        · exact hk h

/-- Elimination for the new-side field walk: inserts for unseen keys of
`fn` absent from `fo`. -/
theorem mem_diffFieldsNew_elim {c : String} {path : List String} {x : AttrDiff}
    {fo : FieldList} :
    ∀ (seen : List String) (fn : FieldList),
      x ∈ diffFieldsNew c path fo seen fn →
      ∃ k d, k ∉ seen ∧ lookupF fn k = some d ∧ lookupF fo k = none ∧
        x = mkInsert c (path ++ [k]) d false
  | seen, .nil, hx => by simp [diffFieldsNew] at hx
  | seen, .cons k0 d0 rest, hx => by
    by_cases hs : k0 ∈ seen
    · simp only [diffFieldsNew, if_pos hs] at hx
      obtain ⟨k, d, hk, hl, hlo, hxx⟩ := mem_diffFieldsNew_elim seen rest hx
      have hne : k0 ≠ k := fun h => hk (h ▸ hs)
      exact ⟨k, d, hk, by rw [lookupF_cons_ne d0 rest hne]; exact hl, hlo, hxx⟩
    · simp only [diffFieldsNew, if_neg hs] at hx
      rcases List.mem_append.1 hx with hh | ht
      · cases hl : lookupF fo k0 with
        | some d2 => rw [hl] at hh; simp at hh
        | none =>
          rw [hl] at hh
          simp only [List.mem_singleton] at hh
          exact ⟨k0, d0, hs, by simp [lookupF], hl, hh⟩
      · obtain ⟨k, d, hk, hl, hlo, hxx⟩ := mem_diffFieldsNew_elim (k0 :: seen) rest ht
        have hne : k0 ≠ k := fun h => hk (h ▸ List.mem_cons_self k0 seen)
        refine ⟨k, d, fun hmem => hk (List.mem_cons_of_mem _ hmem), ?_, hlo, hxx⟩
        rw [lookupF_cons_ne d0 rest hne]; exact hl

/-- Introduction for the new-side field walk. -/
theorem mem_diffFieldsNew_intro {c : String} {path : List String}
    {k : String} {d : AttributeDescriptor} {fo : FieldList} :
    ∀ (seen : List String) (fn : FieldList),
      k ∉ seen → lookupF fn k = some d → lookupF fo k = none →
      mkInsert c (path ++ [k]) d false ∈ diffFieldsNew c path fo seen fn
  | seen, .nil, _, hl, _ => by simp [lookupF] at hl
  | seen, .cons k0 d0 rest, hk, hl, hlo => by
    by_cases hke : k0 = k
    · subst hke
      simp only [lookupF, if_pos rfl] at hl
      cases hl
      simp only [diffFieldsNew, if_neg hk, hlo]
      exact List.mem_append_left _ (List.mem_singleton.2 rfl)
    · rw [lookupF_cons_ne d0 rest hke] at hl
      by_cases hs : k0 ∈ seen
      · simp only [diffFieldsNew, if_pos hs]
        exact mem_diffFieldsNew_intro seen rest hk hl hlo
      · simp only [diffFieldsNew, if_neg hs]
        refine List.mem_append_right _ ?_
        refine mem_diffFieldsNew_intro (k0 :: seen) rest ?_ hl hlo
        intro hmem
        rcases List.mem_cons.1 hmem with h | h
        · exact hke h.symm
        · exact hk h

theorem diffAttribute_self (c : String) (path : List String)
    (n : AttributeDescriptor) : diffAttribute c path n n = [] := by
  cases n <;> simp [diffAttribute]

theorem MirrorIn_mono {x : AttrDiff} {L L2 : List AttrDiff}
    (hsub : ∀ y ∈ L, y ∈ L2) (h : MirrorIn x L) : MirrorIn x L2 := by
  obtain ⟨h1, h2, h3⟩ := h
  refine ⟨fun ht => ?_, fun ht => ?_, fun ht => ?_⟩
  · obtain ⟨m, hm, hmem⟩ := h1 ht
    exact ⟨m, hm, hsub _ hmem⟩
  · obtain ⟨m, hm, hmem⟩ := h2 ht
    exact ⟨m, hm, hsub _ hmem⟩
  · obtain ⟨o2, n2, hc, hmem⟩ := h3 ht
    exact ⟨o2, n2, hc, hsub _ hmem⟩

/-- The mirror property for a diff pair whose two directions are both a
single `update` record. -/
theorem mirror_of_single_update {c : String} {path : List String}
    {o n : AttributeDescriptor} {x : AttrDiff}
    (ho : diffAttribute c path o n = [mkUpdate c path (changesBetween o n)])
    (hr : diffAttribute c path n o = [mkUpdate c path (changesBetween n o)])
    (hx : x ∈ diffAttribute c path o n) :
    MirrorIn x (diffAttribute c path n o) := by
  rw [ho] at hx
  rw [hr]
  simp only [List.mem_singleton] at hx
  subst hx
  exact ⟨fun h => by simp [mkUpdate] at h, fun h => by simp [mkUpdate] at h,
    fun _ => ⟨o, n, rfl, List.mem_singleton.2 rfl⟩⟩

/-- Symmetry of the descriptor diff, by strong induction on size:
every record emitted by `diffAttribute c path o n` has its mirrored
counterpart in `diffAttribute c path n o`. -/
theorem diffAttribute_sym_aux :
    ∀ (N : Nat) (o n : AttributeDescriptor) (c : String) (path : List String)
      (x : AttrDiff), sizeOf o + sizeOf n ≤ N →
      x ∈ diffAttribute c path o n → MirrorIn x (diffAttribute c path n o) := by
  intro N
  induction N with
  | zero =>
    intro o n c path x hsz
    have h1 := one_le_sizeOf_descriptor o
    have h2 := one_le_sizeOf_descriptor n
    omega
  | succ N ih =>
    intro o n c path x hsz hx
    by_cases heq : o = n
    · subst heq
      rw [diffAttribute_self] at hx
      simp at hx
    · have hne2 : n ≠ o := fun h => heq h.symm
      cases o with
      | leaf t1 os1 ob1 =>
        cases n <;>
          exact mirror_of_single_update
            (by simp only [diffAttribute, if_neg heq])
            (by simp only [diffAttribute, if_neg hne2]) hx
      | set i1 os1 ob1 =>
        cases n <;>
          exact mirror_of_single_update
            (by simp only [diffAttribute, if_neg heq])
            (by simp only [diffAttribute, if_neg hne2]) hx
      | record fo oo =>
        cases n with
        | leaf t2 os2 ob2 =>
          exact mirror_of_single_update
            (by simp only [diffAttribute, if_neg heq])
            (by simp only [diffAttribute, if_neg hne2]) hx
        | set i2 os2 ob2 =>
          exact mirror_of_single_update
            (by simp only [diffAttribute, if_neg heq])
            (by simp only [diffAttribute, if_neg hne2]) hx
        | record fn on2 =>
          simp only [diffAttribute, if_neg heq] at hx
          simp only [diffAttribute, if_neg hne2]
          rcases List.mem_append.1 hx with hsh | hfields
          · by_cases hoo : oo = on2
            · simp [hoo] at hsh
            · rw [if_pos hoo] at hsh
              simp only [List.mem_singleton] at hsh
              subst hsh
              refine ⟨fun h => by simp [mkUpdate] at h,
                fun h => by simp [mkUpdate] at h, fun _ => ?_⟩
              refine ⟨.record fo oo, .record fn on2, rfl, ?_⟩
              refine List.mem_append_left _ ?_
              rw [if_pos (fun h => hoo h.symm)]
              exact List.mem_singleton.2 rfl
          · rcases List.mem_append.1 hfields with hold | hnew
            · obtain ⟨k, d, hk, hl, hrest⟩ := mem_diffFieldsOld_elim [] fo fn hold
              rcases hrest with ⟨d2, hl2, hxin⟩ | ⟨hl2, hxeq⟩
              · have hs1 : sizeOf d < sizeOf fo := sizeOf_lookupF fo hl
                have hs2 : sizeOf d2 < sizeOf fn := sizeOf_lookupF fn hl2
                have hszr : sizeOf d + sizeOf d2 ≤ N := by
                  simp only [AttributeDescriptor.record.sizeOf_spec] at hsz
                  omega
                have hm := ih d d2 c (path ++ [k]) x hszr hxin
                refine MirrorIn_mono (fun y hy => ?_) hm
                refine List.mem_append_right _ (List.mem_append_left _ ?_)
                exact mem_diffFieldsOld_intro_pair [] fn fo (by simp) hl2 hl hy
              · subst hxeq
                refine ⟨fun h => by simp [mkDelete] at h, fun _ => ⟨d, rfl, ?_⟩,
                  fun h => by simp [mkDelete] at h⟩
                refine List.mem_append_right _ (List.mem_append_right _ ?_)
                exact mem_diffFieldsNew_intro [] fo (by simp) hl hl2
            · obtain ⟨k, d, hk, hl, hlo, hxeq⟩ := mem_diffFieldsNew_elim [] fn hnew
              subst hxeq
              refine ⟨fun _ => ⟨d, rfl, ?_⟩, fun h => by simp [mkInsert] at h,
                fun h => by simp [mkInsert] at h⟩
              refine List.mem_append_right _ (List.mem_append_left _ ?_)
              exact mem_diffFieldsOld_intro_del [] fn fo (by simp) hl hlo

/-- Symmetry of the descriptor diff. -/
theorem diffAttribute_sym (o n : AttributeDescriptor) (c : String)
    (path : List String) (x : AttrDiff) (hx : x ∈ diffAttribute c path o n) :
    MirrorIn x (diffAttribute c path n o) :=
  diffAttribute_sym_aux (sizeOf o + sizeOf n) o n c path x le_rfl hx

/-- Symmetry of the field-map diff. -/
theorem diffFields_sym (fo fn : FieldList) (c : String) (path : List String)
    (x : AttrDiff) (hx : x ∈ diffFields c path fo fn) :
    MirrorIn x (diffFields c path fn fo) := by
  rcases List.mem_append.1 hx with hold | hnew
  · obtain ⟨k, d, hk, hl, hrest⟩ := mem_diffFieldsOld_elim [] fo fn hold
    rcases hrest with ⟨d2, hl2, hxin⟩ | ⟨hl2, hxeq⟩
    · have hm := diffAttribute_sym d d2 c (path ++ [k]) x hxin
      refine MirrorIn_mono (fun y hy => ?_) hm
      exact List.mem_append_left _
        (mem_diffFieldsOld_intro_pair [] fn fo (by simp) hl2 hl hy)
    · subst hxeq
      refine ⟨fun h => by simp [mkDelete] at h, fun _ => ⟨d, rfl, ?_⟩,
        fun h => by simp [mkDelete] at h⟩
      exact List.mem_append_right _ (mem_diffFieldsNew_intro [] fo (by simp) hl hl2)
  · obtain ⟨k, d, hk, hl, hlo, hxeq⟩ := mem_diffFieldsNew_elim [] fn hnew
    subst hxeq
    refine ⟨fun _ => ⟨d, rfl, ?_⟩, fun h => by simp [mkInsert] at h,
      fun h => by simp [mkInsert] at h⟩
    exact List.mem_append_left _
      (mem_diffFieldsOld_intro_del [] fn fo (by simp) hl hlo)

theorem alookup_cons_ne {κ α : Type} [DecidableEq κ] {k0 k : κ} (v0 : α)
    (rest : List (κ × α)) (h : k0 ≠ k) :
    alookup ((k0, v0) :: rest) k = alookup rest k := by
  simp [alookup, h]

theorem mem_firstBindings_elim {k : String} {d : AttributeDescriptor} :
    ∀ (seen : List String) (fl : FieldList),
      (k, d) ∈ firstBindings seen fl → k ∉ seen ∧ lookupF fl k = some d
  | seen, .nil, h => by simp [firstBindings] at h
  | seen, .cons k0 d0 rest, h => by
    by_cases hs : k0 ∈ seen
    · simp only [firstBindings, if_pos hs] at h
      obtain ⟨hk, hl⟩ := mem_firstBindings_elim seen rest h
      have hne : k0 ≠ k := fun he => hk (he ▸ hs)
      exact ⟨hk, by rw [lookupF_cons_ne d0 rest hne]; exact hl⟩
    · simp only [firstBindings, if_neg hs] at h
      rcases List.mem_cons.1 h with h1 | h1
      · obtain ⟨rfl, rfl⟩ := Prod.mk.injEq .. ▸ h1
        exact ⟨hs, by simp [lookupF]⟩
      · obtain ⟨hk, hl⟩ := mem_firstBindings_elim (k0 :: seen) rest h1
        have hne : k0 ≠ k := fun he => hk (he ▸ List.mem_cons_self k0 seen)
        refine ⟨fun hmem => hk (List.mem_cons_of_mem _ hmem), ?_⟩
        rw [lookupF_cons_ne d0 rest hne]; exact hl

theorem mem_firstBindings_intro {k : String} {d : AttributeDescriptor} :
    ∀ (seen : List String) (fl : FieldList),
      k ∉ seen → lookupF fl k = some d → (k, d) ∈ firstBindings seen fl
  | _, .nil, _, hl => by simp [lookupF] at hl
  | seen, .cons k0 d0 rest, hk, hl => by
    by_cases hke : k0 = k
    · subst hke
      simp only [lookupF, if_pos rfl] at hl
      cases hl
      simp only [firstBindings, if_neg hk]
      exact List.mem_cons_self _ _
    · rw [lookupF_cons_ne d0 rest hke] at hl
      by_cases hs : k0 ∈ seen
      · simp only [firstBindings, if_pos hs]
        exact mem_firstBindings_intro seen rest hk hl
      · simp only [firstBindings, if_neg hs]
        refine List.mem_cons_of_mem _ (mem_firstBindings_intro (k0 :: seen) rest ?_ hl)
        intro hmem
        rcases List.mem_cons.1 hmem with h | h
        · exact hke h.symm
        · exact hk h

/-- Elimination for the old-side collections walk. -/
theorem mem_diffCollectionsOld_elim {x : SchemaDiff} :
    ∀ (seen : List String) (co cn : List (String × CollectionDef)),
      x ∈ diffCollectionsOld seen co cn →
      ∃ name cd, name ∉ seen ∧ alookup co name = some cd ∧
        ((∃ cd2, alookup cn name = some cd2 ∧ x ∈ diffCollectionPair name cd cd2)
          ∨ (alookup cn name = none ∧
             x ∈ (deleteAllAttributes name cd.schema).map SchemaDiff.attr)) := by
  intro seen co
  induction co generalizing seen with
  | nil => intro cn hx; simp [diffCollectionsOld] at hx
  | cons hd rest ihc =>
    obtain ⟨name0, cd0⟩ := hd
    intro cn hx
    by_cases hs : name0 ∈ seen
    · simp only [diffCollectionsOld, if_pos hs] at hx
      obtain ⟨name, cd, hk, hl, hrest⟩ := ihc seen cn hx
      have hne : name0 ≠ name := fun he => hk (he ▸ hs)
      exact ⟨name, cd, hk, by rw [alookup_cons_ne cd0 rest hne]; exact hl, hrest⟩
    · simp only [diffCollectionsOld, if_neg hs] at hx
      rcases List.mem_append.1 hx with hh | ht
      · refine ⟨name0, cd0, hs, by simp [alookup], ?_⟩
        cases hl : alookup cn name0 with
        | some cd2 => rw [hl] at hh; exact Or.inl ⟨cd2, rfl, hh⟩
        | none => rw [hl] at hh; exact Or.inr ⟨rfl, hh⟩
      · obtain ⟨name, cd, hk, hl, hrest⟩ := ihc (name0 :: seen) cn ht
        have hne : name0 ≠ name := fun he => hk (he ▸ List.mem_cons_self name0 seen)
        refine ⟨name, cd, fun hmem => hk (List.mem_cons_of_mem _ hmem), ?_, hrest⟩
        rw [alookup_cons_ne cd0 rest hne]; exact hl

/-- Introduction for the old-side collections walk. -/
theorem mem_diffCollectionsOld_intro {x : SchemaDiff} {name : String}
    {cd : CollectionDef} :
    ∀ (seen : List String) (co cn : List (String × CollectionDef)),
      name ∉ seen → alookup co name = some cd →
      ((∃ cd2, alookup cn name = some cd2 ∧ x ∈ diffCollectionPair name cd cd2)
        ∨ (alookup cn name = none ∧
           x ∈ (deleteAllAttributes name cd.schema).map SchemaDiff.attr)) →
      x ∈ diffCollectionsOld seen co cn := by
  intro seen co
  induction co generalizing seen with
  | nil => intro cn _ hl _; simp [alookup] at hl
  | cons hd rest ihc =>
    obtain ⟨name0, cd0⟩ := hd
    intro cn hk hl hcase
    by_cases hke : name0 = name
    · subst hke
      simp only [alookup, if_pos rfl] at hl
      cases hl
      simp only [diffCollectionsOld, if_neg hk]
      refine List.mem_append_left _ ?_
      rcases hcase with ⟨cd2, hl2, hx⟩ | ⟨hl2, hx⟩
      · rw [hl2]; exact hx
      · rw [hl2]; exact hx
    · rw [alookup_cons_ne cd0 rest hke] at hl
      by_cases hs : name0 ∈ seen
      · simp only [diffCollectionsOld, if_pos hs]
        exact ihc seen cn hk hl hcase
      · simp only [diffCollectionsOld, if_neg hs]
        refine List.mem_append_right _ (ihc (name0 :: seen) cn ?_ hl hcase)
        intro hmem
        rcases List.mem_cons.1 hmem with h | h
        · exact hke h.symm
        · exact hk h

/-- Elimination for the new-side collections walk. -/
theorem mem_diffCollectionsNew_elim {x : SchemaDiff}
    {co : List (String × CollectionDef)} :
    ∀ (seen : List String) (cn : List (String × CollectionDef)),
      x ∈ diffCollectionsNew co seen cn →
      ∃ name cd, name ∉ seen ∧ alookup cn name = some cd ∧
        alookup co name = none ∧
        x ∈ (insertAllAttributes name cd.schema).map SchemaDiff.attr := by
  intro seen cn
  induction cn generalizing seen with
  | nil => intro hx; simp [diffCollectionsNew] at hx
  | cons hd rest ihc =>
    obtain ⟨name0, cd0⟩ := hd
    intro hx
    by_cases hs : name0 ∈ seen
    · simp only [diffCollectionsNew, if_pos hs] at hx
      obtain ⟨name, cd, hk, hl, hlo, hxx⟩ := ihc seen hx
      have hne : name0 ≠ name := fun he => hk (he ▸ hs)
      exact ⟨name, cd, hk, by rw [alookup_cons_ne cd0 rest hne]; exact hl, hlo, hxx⟩
    · simp only [diffCollectionsNew, if_neg hs] at hx
      rcases List.mem_append.1 hx with hh | ht
      · cases hl : alookup co name0 with
        | some cd2 => rw [hl] at hh; simp at hh
        | none =>
          rw [hl] at hh
          exact ⟨name0, cd0, hs, by simp [alookup], hl, hh⟩
      · obtain ⟨name, cd, hk, hl, hlo, hxx⟩ := ihc (name0 :: seen) ht
        have hne : name0 ≠ name := fun he => hk (he ▸ List.mem_cons_self name0 seen)
        refine ⟨name, cd, fun hmem => hk (List.mem_cons_of_mem _ hmem), ?_, hlo, hxx⟩
        rw [alookup_cons_ne cd0 rest hne]; exact hl

/-- Introduction for the new-side collections walk. -/
theorem mem_diffCollectionsNew_intro {x : SchemaDiff} {name : String}
    {cd : CollectionDef} {co : List (String × CollectionDef)} :
    ∀ (seen : List String) (cn : List (String × CollectionDef)),
      name ∉ seen → alookup cn name = some cd → alookup co name = none →
      x ∈ (insertAllAttributes name cd.schema).map SchemaDiff.attr →
      x ∈ diffCollectionsNew co seen cn := by
  intro seen cn
  induction cn generalizing seen with
  | nil => intro _ hl _ _; simp [alookup] at hl
  | cons hd rest ihc =>
    obtain ⟨name0, cd0⟩ := hd
    intro hk hl hlo hx
    by_cases hke : name0 = name
    · subst hke
      simp only [alookup, if_pos rfl] at hl
      cases hl
      simp only [diffCollectionsNew, if_neg hk, hlo]
      exact List.mem_append_left _ hx
    · rw [alookup_cons_ne cd0 rest hke] at hl
      by_cases hs : name0 ∈ seen
      · simp only [diffCollectionsNew, if_pos hs]
        exact ihc seen hk hl hlo hx
      · simp only [diffCollectionsNew, if_neg hs]
        refine List.mem_append_right _ (ihc (name0 :: seen) ?_ hl hlo hx)
        intro hmem
        rcases List.mem_cons.1 hmem with h | h
        · exact hke h.symm
        · exact hk h

/-- The old-side field walk emits nothing when every walked key looks
up to the same descriptor in `fn`. -/
theorem diffFieldsOld_self (c : String) (path : List String) (fn : FieldList) :
    ∀ (seen : List String) (fo : FieldList),
      (∀ k d, k ∉ seen → lookupF fo k = some d → lookupF fn k = some d) →
      diffFieldsOld c path seen fo fn = []
  | _, .nil, _ => by simp [diffFieldsOld]
  | seen, .cons k0 d0 rest, h => by
    by_cases hs : k0 ∈ seen
    · simp only [diffFieldsOld, if_pos hs]
      refine diffFieldsOld_self c path fn seen rest (fun k d hk hl => ?_)
      have hne : k0 ≠ k := fun he => hk (he ▸ hs)
      exact h k d hk (by rw [lookupF_cons_ne d0 rest hne]; exact hl)
    · simp only [diffFieldsOld, if_neg hs]
      have h0 : lookupF fn k0 = some d0 := h k0 d0 hs (by simp [lookupF])
      rw [h0]
      simp only [diffAttribute_self, List.nil_append]
      refine diffFieldsOld_self c path fn (k0 :: seen) rest (fun k d hk hl => ?_)
      have hne : k0 ≠ k := fun he => hk (he ▸ List.mem_cons_self k0 seen)
      refine h k d (fun hmem => hk (List.mem_cons_of_mem _ hmem)) ?_
      rw [lookupF_cons_ne d0 rest hne]; exact hl

/-- The new-side field walk emits nothing when every walked key is
present in `fo`. -/
theorem diffFieldsNew_self (c : String) (path : List String) (fo : FieldList) :
    ∀ (seen : List String) (fn : FieldList),
      (∀ k d, k ∉ seen → lookupF fn k = some d → (lookupF fo k).isSome) →
      diffFieldsNew c path fo seen fn = []
  | _, .nil, _ => by simp [diffFieldsNew]
  | seen, .cons k0 d0 rest, h => by
    by_cases hs : k0 ∈ seen
    · simp only [diffFieldsNew, if_pos hs]
      refine diffFieldsNew_self c path fo seen rest (fun k d hk hl => ?_)
      have hne : k0 ≠ k := fun he => hk (he ▸ hs)
      exact h k d hk (by rw [lookupF_cons_ne d0 rest hne]; exact hl)
    · simp only [diffFieldsNew, if_neg hs]
      have h0 : (lookupF fo k0).isSome := h k0 d0 hs (by simp [lookupF])
      obtain ⟨d2, hd2⟩ := Option.isSome_iff_exists.1 h0
      rw [hd2, List.nil_append]
      refine diffFieldsNew_self c path fo (k0 :: seen) rest (fun k d hk hl => ?_)
      have hne : k0 ≠ k := fun he => hk (he ▸ List.mem_cons_self k0 seen)
      refine h k d (fun hmem => hk (List.mem_cons_of_mem _ hmem)) ?_
      rw [lookupF_cons_ne d0 rest hne]; exact hl

theorem diffFields_self (c : String) (path : List String) (fl : FieldList) :
    diffFields c path fl fl = [] := by
  rw [diffFields, diffFieldsOld_self c path fl [] fl (fun k d _ hl => hl),
    diffFieldsNew_self c path fl [] fl (fun k d _ hl => by simp [hl]),
    List.append_nil]

theorem diffCollectionPair_self (name : String) (cd : CollectionDef) :
    diffCollectionPair name cd cd = [] := by
  simp [diffCollectionPair, diffFields_self]

theorem diffCollectionsOld_self (cn : List (String × CollectionDef)) :
    ∀ (seen : List String) (co : List (String × CollectionDef)),
      (∀ name cd, name ∉ seen → alookup co name = some cd →
        alookup cn name = some cd) →
      diffCollectionsOld seen co cn = [] := by
  intro seen co
  induction co generalizing seen with
  | nil => intro _; simp [diffCollectionsOld]
  | cons hd rest ihc =>
    obtain ⟨name0, cd0⟩ := hd
    intro h
    by_cases hs : name0 ∈ seen
    · simp only [diffCollectionsOld, if_pos hs]
      refine ihc seen (fun name cd hk hl => ?_)
      have hne : name0 ≠ name := fun he => hk (he ▸ hs)
      exact h name cd hk (by rw [alookup_cons_ne cd0 rest hne]; exact hl)
    · simp only [diffCollectionsOld, if_neg hs]
      have h0 : alookup cn name0 = some cd0 := h name0 cd0 hs (by simp [alookup])
      rw [h0]
      simp only [diffCollectionPair_self, List.nil_append]
      refine ihc (name0 :: seen) (fun name cd hk hl => ?_)
      have hne : name0 ≠ name := fun he => hk (he ▸ List.mem_cons_self name0 seen)
      refine h name cd (fun hmem => hk (List.mem_cons_of_mem _ hmem)) ?_
      rw [alookup_cons_ne cd0 rest hne]; exact hl

theorem diffCollectionsNew_self (co : List (String × CollectionDef)) :
    ∀ (seen : List String) (cn : List (String × CollectionDef)),
      (∀ name cd, name ∉ seen → alookup cn name = some cd →
        (alookup co name).isSome) →
      diffCollectionsNew co seen cn = [] := by
  intro seen cn
  induction cn generalizing seen with
  | nil => intro _; simp [diffCollectionsNew]
  | cons hd rest ihc =>
    obtain ⟨name0, cd0⟩ := hd
    intro h
    by_cases hs : name0 ∈ seen
    · simp only [diffCollectionsNew, if_pos hs]
      refine ihc seen (fun name cd hk hl => ?_)
      have hne : name0 ≠ name := fun he => hk (he ▸ hs)
      exact h name cd hk (by rw [alookup_cons_ne cd0 rest hne]; exact hl)
    · simp only [diffCollectionsNew, if_neg hs]
      have h0 : (alookup co name0).isSome := h name0 cd0 hs (by simp [alookup])
      obtain ⟨cd2, hcd2⟩ := Option.isSome_iff_exists.1 h0
      rw [hcd2, List.nil_append]
      refine ihc (name0 :: seen) (fun name cd hk hl => ?_)
      have hne : name0 ≠ name := fun he => hk (he ▸ List.mem_cons_self name0 seen)
      refine h name cd (fun hmem => hk (List.mem_cons_of_mem _ hmem)) ?_
      rw [alookup_cons_ne cd0 rest hne]; exact hl

theorem diffSchemas_self (s : SchemaDef) : diffSchemas s s = [] := by
  rw [diffSchemas,
    diffCollectionsOld_self s.collections [] s.collections (fun _ _ _ hl => hl),
    diffCollectionsNew_self s.collections [] s.collections
      (fun _ _ _ hl => by simp [hl]),
    if_neg (by simp)]
  rfl

theorem mem_diffSchemas_of_old {a b : SchemaDef} {y : SchemaDiff}
    (h : y ∈ diffCollectionsOld [] a.collections b.collections) :
    y ∈ diffSchemas a b := by
  rw [diffSchemas]
  exact List.mem_append_left _ (List.mem_append_left _ h)

theorem mem_diffSchemas_of_new {a b : SchemaDef} {y : SchemaDiff}
    (h : y ∈ diffCollectionsNew a.collections [] b.collections) :
    y ∈ diffSchemas a b := by
  rw [diffSchemas]
  exact List.mem_append_left _ (List.mem_append_right _ h)

/-- The schema-level mirror: every `collectionAttribute` record of
`diffSchemas a b` has its mirrored counterpart in `diffSchemas b a`. -/
theorem diffSchemas_attr_sym {a b : SchemaDef} {x : AttrDiff}
    (hx : SchemaDiff.attr x ∈ diffSchemas a b) :
    (x.type = .insert → ∃ m, x.metadata = some m ∧
      SchemaDiff.attr (mkDelete x.collection x.attrPath m) ∈ diffSchemas b a)
    ∧ (x.type = .delete → ∃ m f, x.metadata = some m ∧
      SchemaDiff.attr (mkInsert x.collection x.attrPath m f) ∈ diffSchemas b a)
    ∧ (x.type = .update → ∃ o2 n2, x.changes = some (changesBetween o2 n2) ∧
      SchemaDiff.attr (mkUpdate x.collection x.attrPath (changesBetween n2 o2))
        ∈ diffSchemas b a) := by
  rw [diffSchemas] at hx
  rcases List.mem_append.1 hx with hcolls | hroles
  swap
  · exfalso
    by_cases hr : a.roles ≠ b.roles
    · rw [if_pos hr] at hroles
      simp at hroles
    · rw [if_neg hr] at hroles
      simp at hroles
  rcases List.mem_append.1 hcolls with hold | hnew
  · obtain ⟨name, cd, _, hla, hcase⟩ := mem_diffCollectionsOld_elim [] _ _ hold
    rcases hcase with ⟨cd2, hlb, hpair⟩ | ⟨hlb, hdel⟩
    · rw [diffCollectionPair] at hpair
      rcases List.mem_append.1 hpair with hattr | hperms
      swap
      · exfalso
        by_cases hp : cd.permissions ≠ cd2.permissions
        · rw [if_pos hp] at hperms
          simp at hperms
        · rw [if_neg hp] at hperms
          simp at hperms
      rcases List.mem_append.1 hattr with hfield | hrules
      swap
      · exfalso
        by_cases hr : cd.rules ≠ cd2.rules
        · rw [if_pos hr] at hrules
          simp at hrules
        · rw [if_neg hr] at hrules
          simp at hrules
      obtain ⟨y, hy, heq⟩ := List.mem_map.1 hfield
      have hyx : y = x := by injection heq
      subst hyx
      have hmir := diffFields_sym cd.schema cd2.schema name [] y hy
      have hemb : ∀ z, z ∈ diffFields name [] cd2.schema cd.schema →
          SchemaDiff.attr z ∈ diffSchemas b a := by
        intro z hz
        refine mem_diffSchemas_of_old
          (mem_diffCollectionsOld_intro [] _ _ (by simp) hlb
            (Or.inl ⟨cd, hla, ?_⟩))
        rw [diffCollectionPair]
        exact List.mem_append_left _
          (List.mem_append_left _ (List.mem_map_of_mem _ hz))
      obtain ⟨hm1, hm2, hm3⟩ := hmir
      refine ⟨fun ht => ?_, fun ht => ?_, fun ht => ?_⟩
      · obtain ⟨m, hm, hmem⟩ := hm1 ht
        exact ⟨m, hm, hemb _ hmem⟩
      · obtain ⟨m, hm, hmem⟩ := hm2 ht
        exact ⟨m, false, hm, hemb _ hmem⟩
      · obtain ⟨o2, n2, hc, hmem⟩ := hm3 ht
        exact ⟨o2, n2, hc, hemb _ hmem⟩
    · obtain ⟨y, hy, heq⟩ := List.mem_map.1 hdel
      have hyx : y = x := by injection heq
      subst hyx
      obtain ⟨⟨k, d⟩, hkd, hdd⟩ := List.mem_map.1 hy
      subst hdd
      refine ⟨fun ht => by simp [mkDelete] at ht, fun _ => ⟨d, true, rfl, ?_⟩,
        fun ht => by simp [mkDelete] at ht⟩
      refine mem_diffSchemas_of_new
        (mem_diffCollectionsNew_intro [] _ (by simp) hla hlb ?_)
      exact List.mem_map_of_mem _ (List.mem_map_of_mem _ hkd)
  · obtain ⟨name, cd, _, hlb, hla, hins⟩ := mem_diffCollectionsNew_elim [] _ hnew
    obtain ⟨y, hy, heq⟩ := List.mem_map.1 hins
    have hyx : y = x := by injection heq
    subst hyx
    obtain ⟨⟨k, d⟩, hkd, hdd⟩ := List.mem_map.1 hy
    subst hdd
    refine ⟨fun _ => ⟨d, rfl, ?_⟩, fun ht => by simp [mkInsert] at ht,
      fun ht => by simp [mkInsert] at ht⟩
    refine mem_diffSchemas_of_old
      (mem_diffCollectionsOld_intro [] _ _ (by simp) hlb (Or.inr ⟨hla, ?_⟩))
    exact List.mem_map_of_mem _ (List.mem_map_of_mem _ hkd)

/-! ## Claim theorems -/

/-- Claim C1: `diffSchemas(a, b)` and `diffSchemas(b, a)` are symmetric
under negation of the record `type`: every `insert` record of
`diffSchemas a b` appears as a `delete` record of `diffSchemas b a` on
the same collection and attribute path with identical metadata, and
vice versa (the `isNewCollection` key exists only on inserts); `update`
records swap their from/to orientation — the reverse diff carries
`changesBetween` with its two descriptors swapped at the same position.
In particular `diffSchemas s s` is empty for every schema `s`. -/
theorem diffSchemas_symmetric (a b : SchemaDef) :
    (∀ c p m f, SchemaDiff.attr (mkInsert c p m f) ∈ diffSchemas a b →
      SchemaDiff.attr (mkDelete c p m) ∈ diffSchemas b a)
    ∧ (∀ c p m, SchemaDiff.attr (mkDelete c p m) ∈ diffSchemas a b →
      ∃ f, SchemaDiff.attr (mkInsert c p m f) ∈ diffSchemas b a)
    ∧ (∀ c p ch, SchemaDiff.attr (mkUpdate c p ch) ∈ diffSchemas a b →
      ∃ o2 n2, ch = changesBetween o2 n2 ∧
        SchemaDiff.attr (mkUpdate c p (changesBetween n2 o2)) ∈ diffSchemas b a)
    ∧ ∀ s : SchemaDef, diffSchemas s s = [] := by
  refine ⟨fun c p m f hx => ?_, fun c p m hx => ?_, fun c p ch hx => ?_,
    diffSchemas_self⟩
  · obtain ⟨m2, hm2, hmem⟩ := (diffSchemas_attr_sym hx).1 rfl
    have hm : m = m2 := by
      have h2 : (some m : Option AttributeDescriptor) = some m2 := hm2
      injection h2
    subst hm
    exact hmem
  · obtain ⟨m2, f, hm2, hmem⟩ := (diffSchemas_attr_sym hx).2.1 rfl
    have hm : m = m2 := by
      have h2 : (some m : Option AttributeDescriptor) = some m2 := hm2
      injection h2
    subst hm
    exact ⟨f, hmem⟩
  · obtain ⟨o2, n2, hch, hmem⟩ := (diffSchemas_attr_sym hx).2.2 rfl
    have hc : ch = changesBetween o2 n2 := by
      have h2 : (some ch : Option Changes) = some (changesBetween o2 n2) := hch
      injection h2
    exact ⟨o2, n2, hc, hmem⟩

/-- Witness for C1: the removed collection's delete mirrors the added
collection's insert, the `x : string → number` update mirrors with its
orientation swapped, and a self-diff is empty. -/
theorem diffSchemas_symmetric_witness :
    SchemaDiff.attr (mkDelete "second" ["id"] idDescriptor)
      ∈ diffSchemas schemaTwo schemaOne
    ∧ (∃ f, SchemaDiff.attr (mkInsert "second" ["id"] idDescriptor f)
        ∈ diffSchemas schemaOne schemaTwo)
    ∧ (∃ o2 n2,
        changesBetween stringDescriptor numberDescriptor = changesBetween o2 n2 ∧
        SchemaDiff.attr (mkUpdate "t" ["x"] (changesBetween n2 o2))
          ∈ diffSchemas schemaNum schemaStr)
    ∧ diffSchemas schemaTwo schemaTwo = [] :=
  ⟨(diffSchemas_symmetric schemaOne schemaTwo).1 "second" ["id"] idDescriptor true
      (by decide),
   (diffSchemas_symmetric schemaTwo schemaOne).2.1 "second" ["id"] idDescriptor
      (by decide),
   (diffSchemas_symmetric schemaStr schemaNum).2.2.1 "t" ["x"]
      (changesBetween stringDescriptor numberDescriptor) (by decide),
   (diffSchemas_symmetric schemaTwo schemaTwo).2.2.2 schemaTwo⟩

/-- Claim C10: during variable resolution (as used by the
fetch/fetchById/subscribe rule paths and the insert/update write-rule
checks through `replaceVariablesInFilterStatements`), a filter whose
value is a string starting with `$` raises `SessionVariableNotFound`
not only when the named variable is absent from the variables map, but
also whenever its bound value is falsy (`0`, `false`, the empty string
or `null`); only truthy-valued variables are substituted. -/
theorem replaceVariables_rejects_falsy (varMap : List (String × JSVal))
    (path : List String) (op : FOp) (s : String)
    (hs : startsWithDollar s = true) :
    (alookup varMap (dropFirst s) = none →
      replaceVariablesInFilter varMap (.stmt path op (.prim (.str s)))
        = .error (.sessionVariableNotFound s))
    ∧ ∀ val, alookup varMap (dropFirst s) = some val →
      (val.falsy = true →
        replaceVariablesInFilter varMap (.stmt path op (.prim (.str s)))
          = .error (.sessionVariableNotFound s))
      ∧ (val.falsy = false →
        replaceVariablesInFilter varMap (.stmt path op (.prim (.str s)))
          = .ok (.stmt path op val)) := by
  refine ⟨fun h => ?_, fun val h => ⟨fun hf => ?_, fun hf => ?_⟩⟩
  · simp [replaceVariablesInFilter, hs, h]
  · simp [replaceVariablesInFilter, hs, h, hf]
  · simp [replaceVariablesInFilter, hs, h, hf]

/-- Witness for C10: the variable bound to `0` raises, an absent
variable raises, a truthy-valued variable is substituted. -/
theorem replaceVariables_rejects_falsy_witness :
    replaceVariablesInFilter [("uid", .prim (.num 0))]
        (.stmt ["author"] .eq (.prim (.str "$uid")))
      = .error (.sessionVariableNotFound "$uid")
    ∧ replaceVariablesInFilter [] (.stmt ["author"] .eq (.prim (.str "$uid")))
      = .error (.sessionVariableNotFound "$uid")
    ∧ replaceVariablesInFilter [("uid", .prim (.str "alice"))]
        (.stmt ["author"] .eq (.prim (.str "$uid")))
      = .ok (.stmt ["author"] .eq (.prim (.str "alice"))) :=
  ⟨((replaceVariables_rejects_falsy [("uid", .prim (.num 0))] ["author"] .eq "$uid"
      (by decide)).2 (.prim (.num 0)) (by decide)).1 (by decide),
   (replaceVariables_rejects_falsy [] ["author"] .eq "$uid" (by decide)).1 (by decide),
   ((replaceVariables_rejects_falsy [("uid", .prim (.str "alice"))] ["author"] .eq "$uid"
      (by decide)).2 (.prim (.str "alice")) (by decide)).2 (by decide)⟩

/-- Claim C7: `transact(cb)` commits the transaction when `cb` returns
without throwing; when `cb` throws, the transaction is cancelled — no
staged writes persist, the resulting store state is the original one —
and the same exception is re-raised to the caller. -/
theorem transact_commits_or_cancels (st : EntState)
    (cb : TxState → Except ErrKind TxState) :
    (∀ tx, cb ⟨st, []⟩ = .ok tx → DB.transact st cb = (.ok (), commitTx tx))
    ∧ ∀ e, cb ⟨st, []⟩ = .error e → DB.transact st cb = (.error e, st) := by
  constructor <;> intro x h <;> simp [DB.transact, TripleStore.transact, h]

/-- Witness for C7: a clean insert commits its staged write; a throwing
callback leaves the store unchanged and re-raises. -/
theorem transact_commits_or_cancels_witness :
    DB.transact noRulesState
        (fun tx => .ok (Document.insert tx "posts#2" sampleDoc "posts"))
      = (.ok (), commitTx ⟨noRulesState, [.insertDoc "posts#2" "posts" sampleDoc]⟩)
    ∧ DB.transact noRulesState (fun _ => .error .writeRule)
      = (.error .writeRule, noRulesState) :=
  ⟨(transact_commits_or_cancels noRulesState _).1
      ⟨noRulesState, [.insertDoc "posts#2" "posts" sampleDoc]⟩ rfl,
   (transact_commits_or_cancels noRulesState _).2 .writeRule rfl⟩

/-- Claim C8: `insert(collection, doc, id)` with an id containing `#`
fails with `InvalidEntityId` and writes nothing; with the id omitted an
id is generated (`nanoid()`, modelled by `genId`), the document is
stored under it and the insert returns the commit timestamp. -/
theorem insert_validates_id_and_generates (st : EntState)
    (varMap : List (String × JSVal)) (c : String) (doc : PlainObj)
    (genId : String) :
    (∀ s, s.toList.contains '#' = true →
        DB.insert st varMap c doc (some s) genId = (.error .invalidEntityId, st))
    ∧ (checkWriteRules (DB.getCollectionSchema st c) varMap
          (objectToTimestampedObject doc) = .ok () →
        DB.insert st varMap c doc none genId
          = (.ok (st.time, st.client),
             commitTx ⟨st, [.insertDoc (appendCollectionToId c genId) c doc]⟩)
        ∧ alookup (DB.insert st varMap c doc none genId).2.entities
            (appendCollectionToId c genId)
          = some (wrapPlain st.time st.client doc)) := by
  constructor
  · intro s hs
    have hmem : '#' ∈ s.data := by simpa using hs
    simp [DB.insert, validateExternalId, hmem]
  · intro h
    have heq : DB.insert st varMap c doc none genId
        = (.ok (st.time, st.client),
           commitTx ⟨st, [.insertDoc (appendCollectionToId c genId) c doc]⟩) := by
      simp [DB.insert, h, TripleStore.transact, Document.insert]
    refine ⟨heq, ?_⟩
    rw [heq]
    simp [commitTx, effState, applyWrites, applyWrite, alookup_aupsert_self]

/-- Witness for C8: the id `a#b` is rejected with the store unchanged;
an omitted id stores the document under the generated id and returns
the commit timestamp `(5, "me")`. -/
theorem insert_validates_id_and_generates_witness :
    DB.insert writeRulesState [] "users" sampleDoc (some "a#b") "gen"
      = (.error .invalidEntityId, writeRulesState)
    ∧ DB.insert writeRulesState [] "users" sampleDoc none "gen"
      = (.ok (5, "me"),
         commitTx ⟨writeRulesState, [.insertDoc "users#gen" "users" sampleDoc]⟩) :=
  ⟨(insert_validates_id_and_generates writeRulesState [] "users" sampleDoc "gen").1
      "a#b" (by decide),
   ((insert_validates_id_and_generates writeRulesState [] "users" sampleDoc "gen").2
      (by decide)).1⟩

/-- Claim C3: `migrate` applies a migration's `up` operations iff the
direction is `up` and `migration.parent` equals the current version,
applies its `down` operations iff the direction is `down` and
`migration.version` equals the current version, and otherwise skips the
migration leaving the database unchanged. -/
theorem migrateOne_gate (st : TStore) (m : Migration) :
    (∀ st1, m.parent = dbVersion st → applyOps st m.up = .ok st1 →
        DB.migrateOne st m .up
          = (.ok (setVersionMeta st1 m.version), [st1, setVersionMeta st1 m.version]))
    ∧ (∀ st1, m.version = dbVersion st → applyOps st m.down = .ok st1 →
        DB.migrateOne st m .down
          = (.ok (setVersionMeta st1 m.parent), [st1, setVersionMeta st1 m.parent]))
    ∧ (m.parent ≠ dbVersion st → DB.migrateOne st m .up = (.ok st, []))
    ∧ (m.version ≠ dbVersion st → DB.migrateOne st m .down = (.ok st, [])) := by
  refine ⟨fun st1 hv hops => ?_, fun st1 hv hops => ?_, fun hv => ?_, fun hv => ?_⟩ <;>
    simp [DB.migrateOne, canMigrate, DB.applyRemoteTransaction, Migration.ops, hv] <;>
    simp [hops]

/-- Witness for C3: at version 0, the `0 → 1` migration's up operations
apply (and only then the version advances); its down operations are
gated off and leave the store unchanged. -/
theorem migrateOne_gate_witness :
    DB.migrateOne versionZeroStore todosMigration .up
      = (.ok (setVersionMeta opsCommitState 1), [opsCommitState, setVersionMeta opsCommitState 1])
    ∧ DB.migrateOne versionZeroStore todosMigration .down = (.ok versionZeroStore, []) :=
  ⟨(migrateOne_gate versionZeroStore todosMigration).1 opsCommitState (by decide) (by decide),
   (migrateOne_gate versionZeroStore todosMigration).2.2.2 (by decide)⟩

/-- Claim C2 (code bug): the operations of a migration do run
atomically in one transaction and a failing operation rethrows without
advancing the version — but on success the `_schema` version tuple is
*not* updated in the same transaction as the operations: evaluating the
executor at a concrete migration shows two separate commits, the first
(`opsCommitState`) already carrying the new collection metadata while
its version tuple still reads 0 (the code's
`// TODO: move this into the transaction` marks exactly this). -/
theorem migrate_version_advances_in_separate_commit :
    DB.migrateOne versionZeroStore todosMigration .up
      = (.ok versionCommitState, [opsCommitState, versionCommitState])
    ∧ dbVersion opsCommitState = 0
    ∧ readMetadataTuples opsCommitState ["collections", "todos"] ≠ []
    ∧ dbVersion versionCommitState = 1
    ∧ DB.migrateOne versionZeroStore badOpMigration .up
      = (.error .invalidMigrationOperation, [])
    ∧ dbVersion versionZeroStore = 0 :=
  ⟨by decide, by decide, by decide, by decide, by decide, by decide⟩

/-- Claim C4 (code bug): `fetchById` returns `null` when no entity
exists and a plain (timestamp-stripped) document when the collection
has no read rules — but when read rules are present and satisfied it
returns the raw *timestamped* entity (`return entity;`, db.ts 391),
which is not a plain document. -/
theorem fetchById_readRules_returns_timestamped :
    DB.fetchById readRulesState [] "posts" "1"
      = .ok (some (.timestamped titleEntity))
    ∧ (∀ p : PlainObj, FetchedDoc.timestamped titleEntity ≠ FetchedDoc.plain p)
    ∧ DB.fetchById noRulesState [] "posts" "1"
      = .ok (some (.plain (timestampedObjectToPlainObject titleEntity)))
    ∧ DB.fetchById readRulesState [] "posts" "2" = .ok none :=
  ⟨by decide, fun p => by simp, by decide, by decide⟩

/-- Claim C5 (code bug): with a schema present, assigning a value to a
path the schema does not recognize makes the update proxy throw before
anything is staged — but the thrown error is a plain
`Error('Cannot set unrecognized property ...')`, not the typed
`UnknownAttribute` error (the code's own
`// TODO use correct Triplit Error` marks this); a recognized path
stages the assignment. -/
theorem updateProxy_unknown_path_plain_error :
    createUpdateProxySet (some nameOnlySchema) [] "" "age" (.num 5)
      = .error (.genericError "Cannot set unrecognized property /age")
    ∧ (∀ msg, ErrKind.genericError msg ≠ ErrKind.unknownAttribute)
    ∧ createUpdateProxySet (some nameOnlySchema) [] "" "name" (.str "x")
      = .ok [("/name", .str "x")] :=
  ⟨by decide, fun msg => by simp, by decide⟩

/-- Claim C6: for an update on a collection with (nonempty) write
rules, after the mutator's staged changes are applied the entity's
post-update value is re-fetched and re-evaluated against the
collection's write-rule predicates; when it does not satisfy them, a
`WriteRuleViolation` (`WriteRuleError`) is raised and the enclosing
transaction is aborted, leaving the store — and hence the stored
triples — unchanged. -/
theorem update_write_rule_aborts (st : EntState)
    (varMap : List (String × JSVal)) (c id : String)
    (changes : List (String × JSPrim)) (ws : List Rule)
    (filters : List Filter) (fd : FetchedDoc) (upd : Option FetchedDoc)
    (hw : writeRulesOf (DB.getCollectionSchema st c) = some ws)
    (hne : ws ≠ [])
    (hfid : DBTransaction.fetchById ⟨st, []⟩ varMap c id = .ok (some fd))
    (hupd : postUpdateFetch st varMap c id changes = .ok upd)
    (hres : replaceVariablesInFilterStatements (ws.flatMap Rule.filter) varMap
      = .ok filters)
    (hfail : doesEntityObjMatchWhere (rewrapFetched upd) filters = false) :
    DB.update st varMap c id changes = (.error .writeRule, st) := by
  have hempty : ws.isEmpty = false := by
    cases ws with
    | nil => exact absurd rfl hne
    | cons a l => rfl
  simp only [postUpdateFetch, stagedUpdateTx] at hupd
  have hstep : DBTransaction.update ⟨st, []⟩ varMap c id changes
      = .error .writeRule := by
    simp only [DBTransaction.update, hfid, hw, hempty, List.nil_append,
      Bool.false_eq_true, if_false]
    simp only [hupd, hres, hfail, Bool.false_eq_true, if_false]
  simp [DB.update, DB.transact, TripleStore.transact, hstep]

/-- Witness for C6: updating `users#1` to `{ name: "bad" }` violates
the write rule `name = "ok"`; the update errors with `WriteRuleError`
and the store is unchanged. -/
theorem update_write_rule_aborts_witness :
    DB.update writeRulesState [] "users" "1" [("/name", .str "bad")]
      = (.error .writeRule, writeRulesState) :=
  update_write_rule_aborts writeRulesState [] "users" "1"
    [("/name", .str "bad")] [nameWriteRule]
    [.stmt ["name"] .eq (.prim (.str "ok"))]
    (.plain (.node (.cons "name" (.leaf (.str "ok")) .nil)))
    (some (.plain (.node (.cons "name" (.leaf (.str "bad")) .nil))))
    (by decide) (by decide) (by decide) (by decide) (by decide) (by decide)

/-- Claim C9: after `rename_attribute` from `p` to `q` (`p ≠ q`) in
collection `c`, every data triple whose attribute started with `[c, p]`
exists with that head replaced by `[c, q]` — same entity id, value,
timestamp and tombstone — across every configured storage scope; no
triple with the old attribute head remains; and (with a schema present
and the metadata store key-unique, as a tuple store is) the `_schema`
tuples under the attribute are rewritten to the new path, none
remaining under the old one. -/
theorem renameAttribute_rewrites_all (st : TStore) (c p q : String)
    (hpq : p ≠ q) :
    (∀ scopeName triples, (scopeName, triples) ∈ st.scopes →
      ∀ t ∈ triples, segsMatch [c, p] t.attrPath = true →
        ∃ triples2,
          (scopeName, triples2) ∈ (DBTransaction.renameAttribute st c p q).scopes ∧
          { t with attrPath := [c, q] ++ t.attrPath.drop 2 } ∈ triples2)
    ∧ (∀ scopeName triples2,
        (scopeName, triples2) ∈ (DBTransaction.renameAttribute st c p q).scopes →
        ∀ t ∈ triples2, segsMatch [c, p] t.attrPath = false)
    ∧ (hasSchema st = true → (st.metadata.map Prod.fst).Nodup →
        (∀ a v, (a, v) ∈ st.metadata →
          segsMatch ["collections", c, "attributes", p] a = true →
          (spliceAttrSegment a q, v) ∈ (DBTransaction.renameAttribute st c p q).metadata)
        ∧ ∀ a v, (a, v) ∈ (DBTransaction.renameAttribute st c p q).metadata →
          segsMatch ["collections", c, "attributes", p] a = false) := by
  have hscopes : (DBTransaction.renameAttribute st c p q).scopes
      = st.scopes.map (fun sc =>
          (sc.1, sc.2.filter (fun t => ¬ segsMatch [c, p] t.attrPath)
            ++ transformTripleAttribute
                (sc.2.filter (fun t => segsMatch [c, p] t.attrPath))
                [c, p] [c, q])) := by
    cases h : hasSchema st <;>
      simp [DBTransaction.renameAttribute, h, updateMetadataTuples,
        deleteMetadataTuples]
  refine ⟨?_, ?_, ?_⟩
  · intro scopeName triples hsc t ht hmatch
    rw [hscopes]
    refine ⟨_, List.mem_map_of_mem _ hsc, List.mem_append_right _ ?_⟩
    refine List.mem_map.2 ⟨t, List.mem_filter.2 ⟨ht, by simp [hmatch]⟩, ?_⟩
    rfl
  · intro scopeName triples2 hsc2 t ht
    rw [hscopes] at hsc2
    obtain ⟨⟨sn, tr⟩, hmem, heq⟩ := List.mem_map.1 hsc2
    simp only at heq
    injection heq with h1 h2
    subst h1
    subst h2
    rcases List.mem_append.1 ht with hk | htr
    · have hpred := (List.mem_filter.1 hk).2
      simpa using hpred
    · simp only [transformTripleAttribute] at htr
      obtain ⟨t2, _, rfl⟩ := List.mem_map.1 htr
      exact segsMatch_two_false hpq _
  · intro hs hnd
    have hmeta : (DBTransaction.renameAttribute st c p q).metadata
        = ((readMetadataTuples st ["collections", c, "attributes", p]).map
            (fun t => (spliceAttrSegment t.1 q, t.2))).foldl
            (fun acc t => aupsert acc t.1 t.2)
            (st.metadata.filter (fun t =>
              ¬ ((readMetadataTuples st ["collections", c, "attributes", p]).map
                  Prod.fst).contains t.1)) := by
      simp [DBTransaction.renameAttribute, hs, updateMetadataTuples,
        deleteMetadataTuples]
    have hkeys :
        (((readMetadataTuples st ["collections", c, "attributes", p]).map
          (fun t => (spliceAttrSegment t.1 q, t.2))).map Prod.fst).Nodup := by
      have h1 : ((readMetadataTuples st ["collections", c, "attributes", p]).map
          (fun t => (spliceAttrSegment t.1 q, t.2))).map Prod.fst
          = ((readMetadataTuples st ["collections", c, "attributes", p]).map
              Prod.fst).map (fun k => spliceAttrSegment k q) := by
        simp [List.map_map]
      rw [h1]
      have hsub : ((readMetadataTuples st ["collections", c, "attributes", p]).map
          Prod.fst).Sublist (st.metadata.map Prod.fst) :=
        (List.filter_sublist _).map Prod.fst
      refine List.Nodup.map_on ?_ (hnd.sublist hsub)
      intro x hx y hy hxy
      have hxm : segsMatch ["collections", c, "attributes", p] x = true := by
        obtain ⟨⟨a2, v2⟩, ha2, rfl⟩ := List.mem_map.1 hx
        exact (List.mem_filter.1 ha2).2
      have hym : segsMatch ["collections", c, "attributes", p] y = true := by
        obtain ⟨⟨a2, v2⟩, ha2, rfl⟩ := List.mem_map.1 hy
        exact (List.mem_filter.1 ha2).2
      exact spliceAttrSegment_inj hxm hym hxy
    constructor
    · intro a v hmem hmatch
      rw [hmeta]
      have hex : (a, v) ∈ readMetadataTuples st ["collections", c, "attributes", p] :=
        List.mem_filter.2 ⟨hmem, hmatch⟩
      exact mem_foldl_aupsert_of_nodup _ _ _ _ hkeys
        (List.mem_map.2 ⟨(a, v), hex, rfl⟩)
    · intro a v hmem2
      rw [hmeta] at hmem2
      rcases mem_foldl_aupsert_cases _ _ _ hmem2 with hbase | hkey
      · have hpred := (List.mem_filter.1 hbase).2
        by_cases hmatch : segsMatch ["collections", c, "attributes", p] a = true
        · exfalso
          have hex : (a, v) ∈ readMetadataTuples st ["collections", c, "attributes", p] :=
            List.mem_filter.2 ⟨(List.mem_filter.1 hbase).1, hmatch⟩
          have hina : a ∈ ((readMetadataTuples st ["collections", c, "attributes", p]).map
              Prod.fst) := List.mem_map.2 ⟨(a, v), hex, rfl⟩
          simp only [decide_not, Bool.not_eq_eq_eq_not, Bool.not_true,
            decide_eq_false_iff_not] at hpred
          exact hpred (by simpa using hina)
        · simpa using hmatch
      · obtain ⟨x, hx, hfst⟩ := List.mem_map.1 hkey
        obtain ⟨y, hy, hfx⟩ := List.mem_map.1 hx
        have hym : segsMatch ["collections", c, "attributes", p] y.1 = true :=
          (List.mem_filter.1 hy).2
        have ha : a = spliceAttrSegment y.1 q := by
          have h1 : x.1 = a := hfst
          rw [← h1, ← hfx]
        rw [ha, (spliceAttrSegment_decomp q hym).1]
        exact segsMatch_splice_false hpq _

/-- Witness for C9 on `renameStore`: the triple under `["c", "p", "x"]`
reappears under `["c", "q", "x"]` with id and value unchanged, its new
attribute no longer matches the old head, and the `_schema` `type`
tuple is rewritten to attribute `q`. -/
theorem renameAttribute_rewrites_all_witness :
    (∃ triples2,
      ("default", triples2) ∈ (DBTransaction.renameAttribute renameStore "c" "p" "q").scopes ∧
      (⟨"c#1", ["c", "q", "x"], .str "v", 1, "cl", false⟩ : TripleRow) ∈ triples2)
    ∧ segsMatch ["c", "p"]
        (⟨"c#1", ["c", "q", "x"], .str "v", 1, "cl", false⟩ : TripleRow).attrPath = false
    ∧ (spliceAttrSegment ["collections", "c", "attributes", "p", "type"] "q",
        MetaVal.prim (.str "string"))
      ∈ (DBTransaction.renameAttribute renameStore "c" "p" "q").metadata :=
  ⟨(renameAttribute_rewrites_all renameStore "c" "p" "q" (by decide)).1 "default"
      [⟨"c#1", ["c", "p", "x"], .str "v", 1, "cl", false⟩,
       ⟨"c#1", ["c", "z"], .str "w", 1, "cl", false⟩]
      (by decide) ⟨"c#1", ["c", "p", "x"], .str "v", 1, "cl", false⟩
      (by decide) (by decide),
   (renameAttribute_rewrites_all renameStore "c" "p" "q" (by decide)).2.1 "default"
      [⟨"c#1", ["c", "z"], .str "w", 1, "cl", false⟩,
       ⟨"c#1", ["c", "q", "x"], .str "v", 1, "cl", false⟩]
      (by decide) ⟨"c#1", ["c", "q", "x"], .str "v", 1, "cl", false⟩ (by decide),
   ((renameAttribute_rewrites_all renameStore "c" "p" "q" (by decide)).2.2
      (by decide) (by decide)).1
      ["collections", "c", "attributes", "p", "type"] (MetaVal.prim (.str "string"))
      (by decide) (by decide)⟩

end Triplit
